import Mathlib

/-!
Verification development for a CPU software renderer (transform / clip /
raster pipeline).  The Rust source is embedded shallowly: `f64` values are
modelled by `ℚ` (exact arithmetic; the depth buffer, which the source
initialises to `f64::INFINITY`, is modelled by `WithTop ℚ`), vectors by
records of rationals, growable `Vec`s by `List`s, hash maps by association
lists, and the mutable tile buffers by explicit state passing.  Code that
panics (`todo!`) is modelled in `Option`.  The shader/light module, whose
source normalises vectors with `f64::sqrt`, is modelled over `ℝ`.
-/

namespace SR

/-- Rational stand-in for glam `DVec2`. -/
structure Vec2 where
  x : ℚ
  y : ℚ
deriving DecidableEq

/-- Rational stand-in for glam `DVec3`. -/
structure Vec3 where
  x : ℚ
  y : ℚ
  z : ℚ
deriving DecidableEq

/-- Rational stand-in for glam `DVec4`. -/
structure Vec4 where
  x : ℚ
  y : ℚ
  z : ℚ
  w : ℚ
deriving DecidableEq

def Vec2.add (u v : Vec2) : Vec2 := ⟨u.x + v.x, u.y + v.y⟩

def Vec2.sub (u v : Vec2) : Vec2 := ⟨u.x - v.x, u.y - v.y⟩

def Vec2.smul (c : ℚ) (v : Vec2) : Vec2 := ⟨c * v.x, c * v.y⟩

/-- Componentwise division of a vector by a scalar (`DVec2 / f64`). -/
def Vec2.divScalar (v : Vec2) (c : ℚ) : Vec2 := ⟨v.x / c, v.y / c⟩

def Vec2.dot (u v : Vec2) : ℚ := u.x * v.x + u.y * v.y

/-- glam `DVec2::lerp`: `a + t * (b - a)`. -/
def Vec2.lerp (a b : Vec2) (t : ℚ) : Vec2 := a.add (Vec2.smul t (b.sub a))

def Vec3.sub (u v : Vec3) : Vec3 := ⟨u.x - v.x, u.y - v.y, u.z - v.z⟩

def Vec3.dot (u v : Vec3) : ℚ := u.x * v.x + u.y * v.y + u.z * v.z

/-- glam `DVec3::cross`. -/
def Vec3.cross (u v : Vec3) : Vec3 :=
  ⟨u.y * v.z - u.z * v.y, u.z * v.x - u.x * v.z, u.x * v.y - u.y * v.x⟩

def Vec3.xy (v : Vec3) : Vec2 := ⟨v.x, v.y⟩

def Vec4.add (u v : Vec4) : Vec4 := ⟨u.x + v.x, u.y + v.y, u.z + v.z, u.w + v.w⟩

def Vec4.sub (u v : Vec4) : Vec4 := ⟨u.x - v.x, u.y - v.y, u.z - v.z, u.w - v.w⟩

def Vec4.smul (c : ℚ) (v : Vec4) : Vec4 := ⟨c * v.x, c * v.y, c * v.z, c * v.w⟩

def Vec4.dot (u v : Vec4) : ℚ := u.x * v.x + u.y * v.y + u.z * v.z + u.w * v.w

/-- glam `DVec4::lerp`: `a + t * (b - a)`. -/
def Vec4.lerp (a b : Vec4) (t : ℚ) : Vec4 := a.add (Vec4.smul t (b.sub a))

def Vec4.xyz (v : Vec4) : Vec3 := ⟨v.x, v.y, v.z⟩

def v2zero : Vec2 := ⟨0, 0⟩

def v3zero : Vec3 := ⟨0, 0, 0⟩

def v4zero : Vec4 := ⟨0, 0, 0, 0⟩

/-! ### `src/algorithm.rs` -/

/-- The `1e-12` parallelism threshold of `algorithm::lin_plane_intersect4`
(the exact rational `10⁻¹²`; the nearest `f64` to `1e-12` differs from it
by less than one part in `10¹⁶`, which no claim depends on). -/
def parTol : ℚ := 1 / 1000000000000

/-- `algorithm::lin_plane_intersect4`: intersection parameter `t` of the line
`p = l₀ + t·l` with the hyperplane through `p₀` with normal `n`; `none` when
the denominator is within `1e-12` of zero. -/
def lin_plane_intersect4 (p_0 n l_0 l : Vec4) : Option ℚ :=
  let denomi := l.dot n
  if |denomi| < parTol then none
  else some ((p_0.sub l_0).dot n / denomi)

/-- `algorithm::barycentric_gradients2`: gradients of the barycentric
coordinates of the 2D triangle `a b c`.  (In `ℚ`, division by zero yields
zero where `f64` would yield `inf`/`NaN` for degenerate triangles; no claim
in this development depends on the degenerate case.) -/
def barycentric_gradients2 (a b c : Vec2) : Vec2 × Vec2 × Vec2 :=
  let ca := a.sub c
  let bc := c.sub b
  let ab := b.sub a
  let x := ca.sub (Vec2.smul (ca.dot bc / bc.dot bc) bc)
  let y := ab.sub (Vec2.smul (ab.dot ca / ca.dot ca) ca)
  let z := bc.sub (Vec2.smul (bc.dot ab / ab.dot ab) ab)
  let u_alpha := Vec2.divScalar x (x.dot ca)
  let u_beta := Vec2.divScalar y (y.dot ab)
  let u_gamma := Vec2.divScalar z (z.dot bc)
  (u_alpha, u_beta, u_gamma)

/-! ### `src/resources/texture.rs` -/

/-- Pixel format of a texture. -/
inductive Format where
  | RGBA32 : Format
  | RGB24 : Format
deriving DecidableEq

/-- A texture: packed byte buffer plus dimensions and format. -/
structure Texture where
  pixels : List ℕ
  width : ℕ
  height : ℕ
  format : Format
deriving DecidableEq

/-- `f64::trunc` on the rational model: rounding toward zero. -/
def ratTrunc (q : ℚ) : ℤ := if q < 0 then ⌈q⌉ else ⌊q⌋

/-- Rust `as usize` cast of a (finite) `f64`: truncate toward zero and
saturate below at `0`.  (Saturation at `usize::MAX` is not modelled; the
casts in this code are applied to values smaller than a buffer dimension.) -/
def f64ToUsize (q : ℚ) : ℕ := if q < 0 then 0 else (⌊q⌋).toNat

/-- `Texture::nb_chanels`. -/
def Texture.nb_chanels (t : Texture) : ℕ :=
  match t.format with
  | .RGBA32 => 4
  | .RGB24 => 3

/-- `Texture::from_uv`: the channel slice of the pixel addressed by the uv
coordinates, with the source's wrap-and-clamp index computation. -/
def Texture.from_uv (t : Texture) (u v : ℚ) : List ℕ :=
  let u_fraction := u - ratTrunc u
  let v_fraction := v - ratTrunc v
  let nb_channels : ℕ :=
    match t.format with
    | .RGBA32 => 4
    | .RGB24 => 3
  let x0 := f64ToUsize (u_fraction * t.width)
  let y0 := f64ToUsize (v_fraction * t.height)
  let x := min x0 (t.width - 1)
  let y := min y0 (t.height - 1)
  let index := (x + y * t.width) * nb_channels
  (t.pixels.drop index).take nb_channels

/-- `TextureError` (`src/resources/texture.rs`). -/
inductive TextureError where
  | MismatchedPixelDataSize (expected actual : ℕ) : TextureError
  | TextureNameAlreadyExists (name : String) (id : ℕ) : TextureError
deriving DecidableEq

/-- `Texture::from_pixels`. -/
def Texture.from_pixels (width height : ℕ) (pixels : List ℕ) (format : Format) :
    Except TextureError Texture :=
  let format_channels : ℕ :=
    match format with
    | .RGBA32 => 4
    | .RGB24 => 3
  if width * height * format_channels ≠ pixels.length then
    .error (.MismatchedPixelDataSize (width * height * format_channels) pixels.length)
  else
    .ok ⟨pixels, width, height, format⟩

/-- `TextureCatalog`, with its two hash maps modelled as association lists
(insertion order; the source only ever inserts absent keys, so append is a
faithful model of `HashMap::insert`).  `next_id` is a `u32` in the source;
wrap-around after `2³²` insertions is outside the model. -/
structure TextureCatalog where
  next_id : ℕ
  textures : List (ℕ × Texture)
  texture_ids : List (String × ℕ)

/-- `TextureCatalog::new`. -/
def TextureCatalog.new : TextureCatalog := ⟨1, [], []⟩

/-- Lookup in the name-to-id association list (`texture_ids.get(&name)`). -/
def idsLookup (l : List (String × ℕ)) (name : String) : Option ℕ :=
  (l.find? (fun e => e.1 = name)).map (·.2)

/-- `TextureCatalog::add_texture`; the mutated catalog is returned alongside
the `Result`. -/
def TextureCatalog.add_texture (cat : TextureCatalog) (name : String)
    (texture : Texture) : Except TextureError ℕ × TextureCatalog :=
  match idsLookup cat.texture_ids name with
  | some id => (.error (.TextureNameAlreadyExists name id), cat)
  | none =>
      (.ok cat.next_id,
        { next_id := cat.next_id + 1,
          textures := cat.textures ++ [(cat.next_id, texture)],
          texture_ids := cat.texture_ids ++ [(name, cat.next_id)] })

/-! ### `src/pipeline/geometry.rs` -/

/-- The working `Geometry` of a draw call. -/
structure Geometry where
  texture_id : Option ℕ
  vertices : List Vec4
  uvs : List Vec2
  triangles : List ℕ
  clip_w_inv : List ℚ
  triangle_normals : List Vec3

/-- Successive index triples of a triangle list (the source iterates
`(0..triangles.len()).step_by(3)`; a trailing fragment of fewer than three
indices, on which the source would panic, yields no triple). -/
def triChunks : List ℕ → List (ℕ × ℕ × ℕ)
  | a :: b :: c :: rest => (a, b, c) :: triChunks rest
  | _ => []

/-- The keep test of `Geometry::cull_backface` for one triangle. -/
def keepTriangle (vertices : List Vec4) (camera_position : Vec3)
    (t : ℕ × ℕ × ℕ) : Prop :=
  let a := (vertices.getD t.1 v4zero).xyz
  let b := (vertices.getD t.2.1 v4zero).xyz
  let c := (vertices.getD t.2.2 v4zero).xyz
  let cam_to_tri := a.sub camera_position
  let tri_face_normal := (b.sub a).cross (c.sub a)
  cam_to_tri.dot tri_face_normal < 0

instance (vertices : List Vec4) (camera_position : Vec3) (t : ℕ × ℕ × ℕ) :
    Decidable (keepTriangle vertices camera_position t) := by
  unfold keepTriangle; infer_instance

/-- The triangle-list rebuild loop of `Geometry::cull_backface`. -/
def cullTriangles (vertices : List Vec4) (camera_position : Vec3) :
    List ℕ → List ℕ
  | ai :: bi :: ci :: rest =>
      (if keepTriangle vertices camera_position (ai, bi, ci)
       then [ai, bi, ci] else []) ++ cullTriangles vertices camera_position rest
  | _ => []

/-- `Geometry::cull_backface`. -/
def Geometry.cull_backface (g : Geometry) (camera_position : Vec3) : Geometry :=
  { g with triangles := cullTriangles g.vertices camera_position g.triangles }

/-- The clipping-plane tag of `Geometry::clip_geometry`. -/
inductive ClipPlane where
  | XP | XN | YP | YN | ZP | ZN
deriving DecidableEq

/-- The six frustum hyperplane normals, in the order the source clips
against them. -/
def hyperplanes : List (ClipPlane × Vec4) :=
  [(ClipPlane.XP, ⟨1, 0, 0, -1⟩),
   (ClipPlane.XN, ⟨-1, 0, 0, -1⟩),
   (ClipPlane.YP, ⟨0, 1, 0, -1⟩),
   (ClipPlane.YN, ⟨0, -1, 0, -1⟩),
   (ClipPlane.ZP, ⟨0, 0, 1, -1⟩),
   (ClipPlane.ZN, ⟨0, 0, -1, -1⟩)]

/-- The mutable state threaded through `Geometry::clip_geometry`: the growing
vertex and uv arrays and the edge-plane intersection cache (a `HashMap` in
the source; an association list here — the source only inserts keys found
absent, so appending is faithful and the list doubles as the insertion
trace). -/
structure ClipState where
  vertices : List Vec4
  uvs : List Vec2
  cache : List ((ℕ × ℕ × ClipPlane) × ℕ)

/-- `intersection_cache.get`. -/
def cacheLookup (cache : List ((ℕ × ℕ × ClipPlane) × ℕ))
    (k : ℕ × ℕ × ClipPlane) : Option ℕ :=
  (cache.find? (fun e => e.1 = k)).map (·.2)

/-- One edge step of the Sutherland-Hodgman loop in
`Geometry::clip_geometry`: processes the edge `ai → bi` of the current
shape against the plane `(pt, pn)`, extending the accumulated `new_shape`
and possibly appending an intersection vertex/uv and a cache entry. -/
def clipEdge (pt : ClipPlane) (pn : Vec4) (acc : List ℕ × ClipState)
    (e : ℕ × ℕ) : List ℕ × ClipState :=
  let ns := acc.1
  let st := acc.2
  let ai := e.1
  let bi := e.2
  let a := st.vertices.getD ai v4zero
  let b := st.vertices.getD bi v4zero
  let a_in := pn.dot a ≤ 0
  let b_in := pn.dot b ≤ 0
  if (b_in ∧ ¬a_in) ∨ (a_in ∧ ¬b_in) then
    match lin_plane_intersect4 v4zero pn a (b.sub a) with
    | none =>
        -- parallel fallback: emit `b` if `b` outside, else `a, b`; then
        -- `continue` (the trailing `if b_in` push is skipped)
        if ¬b_in then (ns ++ [bi], st) else (ns ++ [ai, bi], st)
    | some t =>
        let e1 := if ai > bi then bi else ai
        let e2 := if ai > bi then ai else bi
        let step : List ℕ × ClipState :=
          match cacheLookup st.cache (e1, e2, pt) with
          | some ci => (ns ++ [ci], st)
          | none =>
              let c := a.lerp b t
              let vertices := st.vertices ++ [c]
              let uv := (st.uvs.getD ai v2zero).lerp (st.uvs.getD bi v2zero) t
              let uvs := st.uvs ++ [uv]
              let ci := vertices.length - 1
              (ns ++ [ci],
                ⟨vertices, uvs, st.cache ++ [((e1, e2, pt), ci)]⟩)
        if b_in then (step.1 ++ [bi], step.2) else step
  else
    if b_in then (ns ++ [bi], st) else (ns, st)

/-- Clip one polygon (`shape`) against one plane: the source's inner
`for edge in 0..shape.len()` loop, with `(shape[edge], shape[(edge+1) % len])`
realised by zipping the shape with its rotation. -/
def clipShapePlane (pt : ClipPlane) (pn : Vec4) (st : ClipState)
    (shape : List ℕ) : List ℕ × ClipState :=
  (shape.zip (shape.rotate 1)).foldl (clipEdge pt pn) ([], st)

/-- Clip one polygon against all six planes in order. -/
def clipShapePlanes (st : ClipState) (shape : List ℕ) : List ℕ × ClipState :=
  hyperplanes.foldl (fun acc p => clipShapePlane p.1 p.2 acc.2 acc.1) (shape, st)

/-- The fan triangulation at the end of the per-triangle loop of
`Geometry::clip_geometry` (`for v in 1..(shape.len() - 1)`). -/
def fanTriangulate (shape : List ℕ) : List ℕ :=
  if 3 ≤ shape.length then
    (List.range (shape.length - 2)).foldl
      (fun ts v => ts ++ [shape.getD 0 0, shape.getD (v + 1) 0, shape.getD (v + 2) 0]) []
  else []

/-- Process one input triangle of `Geometry::clip_geometry`. -/
def clipTriangle (acc : List ℕ × ClipState) (tri : ℕ × ℕ × ℕ) :
    List ℕ × ClipState :=
  let p := clipShapePlanes acc.2 [tri.1, tri.2.1, tri.2.2]
  (acc.1 ++ fanTriangulate p.1, p.2)

/-- The whole triangle loop of `Geometry::clip_geometry`, returning the new
triangle list together with the final state (arrays plus cache). -/
def clipGeometryAux (st : ClipState) (triangles : List ℕ) :
    List ℕ × ClipState :=
  (triChunks triangles).foldl clipTriangle ([], st)

/-- `Geometry::clip_geometry`. -/
def Geometry.clip_geometry (g : Geometry) : Geometry :=
  let p := clipGeometryAux ⟨g.vertices, g.uvs, []⟩ g.triangles
  { g with vertices := p.2.vertices, uvs := p.2.uvs, triangles := p.1 }

/-! ### `src/pipeline/rasterizer.rs` -/

/-- `BinnedTriangle`: a triangle start index plus its tile-relative
bounding box. -/
structure BinnedTriangle where
  triangle_start : ℕ
  min_x : ℕ
  min_y : ℕ
  max_x : ℕ
  max_y : ℕ

/-- A tile's scratch buffers.  The depth buffer holds `f64` values that the
source initialises to `f64::INFINITY`, modelled by `WithTop ℚ`; the frame
buffer is byte-addressed. -/
structure Tile where
  depth_buf : ℕ → WithTop ℚ
  frame_buf : ℕ → ℕ

/-- Point update of a depth buffer. -/
def updDepth (f : ℕ → WithTop ℚ) (i : ℕ) (v : WithTop ℚ) : ℕ → WithTop ℚ :=
  fun j => if j = i then v else f j

/-- Point update of a byte buffer. -/
def updByte (f : ℕ → ℕ) (i v : ℕ) : ℕ → ℕ :=
  fun j => if j = i then v else f j

/-- `ptr::copy_nonoverlapping` of a byte list into a byte buffer at
`start`. -/
def writeBytes : (ℕ → ℕ) → ℕ → List ℕ → (ℕ → ℕ)
  | f, _, [] => f
  | f, start, b :: rest => writeBytes (updByte f start b) (start + 1) rest

/-- The per-triangle constants the rasterizer inner loop reads: vertex
attributes, barycentric gradients, per-x derivatives, the texture and its
channel count, and the barycentric coordinates at the top-left sample of
the bounding box. -/
structure RasterCtx where
  az : ℚ
  bz : ℚ
  cz : ℚ
  w_inv_a : ℚ
  w_inv_b : ℚ
  w_inv_c : ℚ
  uv_a : Vec2
  uv_b : Vec2
  uv_c : Vec2
  alpha_grad : Vec2
  beta_grad : Vec2
  gamma_grad : Vec2
  depth_dx : ℚ
  w_inv_dx : ℚ
  uv_over_w_dx : Vec2
  texture : Option Texture
  nb_channels : ℕ
  alpha_00 : ℚ
  beta_00 : ℚ
  gamma_00 : ℚ

/-- The setup part of the per-`binned_triangle` body of
`Rasterizer::rasterize_threaded` (everything before the `for y` loop). -/
def mkCtx (vertices : List Vec4) (uvs : List Vec2) (w_invs : List ℚ)
    (triangles : List ℕ) (texture : Option Texture)
    (x_offset y_offset : ℕ) (bt : BinnedTriangle) : RasterCtx :=
  let nb_channels : ℕ :=
    match texture with
    | some t => t.nb_chanels
    | none => 0
  let ai := triangles.getD bt.triangle_start 0
  let bi := triangles.getD (bt.triangle_start + 1) 0
  let ci := triangles.getD (bt.triangle_start + 2) 0
  let a := (vertices.getD ai v4zero).xyz
  let b := (vertices.getD bi v4zero).xyz
  let c := (vertices.getD ci v4zero).xyz
  let uv_a := uvs.getD ai v2zero
  let uv_b := uvs.getD bi v2zero
  let uv_c := uvs.getD ci v2zero
  let w_inv_a := w_invs.getD ai 0
  let w_inv_b := w_invs.getD bi 0
  let w_inv_c := w_invs.getD ci 0
  let g := barycentric_gradients2 a.xy b.xy c.xy
  let alpha_grad := g.1
  let beta_grad := g.2.1
  let gamma_grad := g.2.2
  let depth_dx := alpha_grad.x * a.z + beta_grad.x * b.z + gamma_grad.x * c.z
  let w_inv_dx := alpha_grad.x * w_inv_a + beta_grad.x * w_inv_b + gamma_grad.x * w_inv_c
  let uv_over_w_dx :=
    (Vec2.smul (alpha_grad.x * w_inv_a) uv_a).add
      ((Vec2.smul (beta_grad.x * w_inv_b) uv_b).add
        (Vec2.smul (gamma_grad.x * w_inv_c) uv_c))
  let min_posf64_screen : Vec2 :=
    ⟨(x_offset + bt.min_x : ℕ) + 1/2, (y_offset + bt.min_y : ℕ) + 1/2⟩
  { az := a.z, bz := b.z, cz := c.z,
    w_inv_a := w_inv_a, w_inv_b := w_inv_b, w_inv_c := w_inv_c,
    uv_a := uv_a, uv_b := uv_b, uv_c := uv_c,
    alpha_grad := alpha_grad, beta_grad := beta_grad, gamma_grad := gamma_grad,
    depth_dx := depth_dx, w_inv_dx := w_inv_dx, uv_over_w_dx := uv_over_w_dx,
    texture := texture, nb_channels := nb_channels,
    alpha_00 := alpha_grad.dot (min_posf64_screen.sub c.xy),
    beta_00 := beta_grad.dot (min_posf64_screen.sub a.xy),
    gamma_00 := gamma_grad.dot (min_posf64_screen.sub b.xy) }

/-- The running values of the innermost (`for _ in min_x..=max_x`) loop. -/
structure XState where
  alpha_xy : ℚ
  beta_xy : ℚ
  gamma_xy : ℚ
  depth : ℚ
  w_inv : ℚ
  uv_over_w : Vec2
  pixel_index : ℕ

/-- The guarded pixel write of the rasterizer inner loop: inside test on the
three barycentric values, depth test, depth update, perspective division of
the uv, texture fetch and byte write (`255` alpha when the texture has fewer
than four channels; black opaque when there is no texture). -/
def xStep (ctx : RasterCtx) (tile : Tile) (s : XState) : Tile :=
  if (0 ≤ s.alpha_xy ∧ 0 ≤ s.beta_xy ∧ 0 ≤ s.gamma_xy) ∧
      (s.depth : WithTop ℚ) < tile.depth_buf s.pixel_index then
    let depth_buf := updDepth tile.depth_buf s.pixel_index (s.depth : WithTop ℚ)
    let uv := s.uv_over_w.divScalar s.w_inv
    let pixel_channel_index := 4 * s.pixel_index
    let frame_buf :=
      match ctx.texture with
      | some texture =>
          let color := texture.from_uv uv.x uv.y
          let f1 := writeBytes tile.frame_buf pixel_channel_index color
          if ctx.nb_channels ≠ 4 then updByte f1 (pixel_channel_index + 3) 255
          else f1
      | none =>
          writeBytes tile.frame_buf pixel_channel_index [0, 0, 0, 255]
    { depth_buf := depth_buf, frame_buf := frame_buf }
  else tile

/-- The per-x increments at the bottom of the innermost loop. -/
def xAdvance (ctx : RasterCtx) (s : XState) : XState :=
  { alpha_xy := s.alpha_xy + ctx.alpha_grad.x,
    beta_xy := s.beta_xy + ctx.beta_grad.x,
    gamma_xy := s.gamma_xy + ctx.gamma_grad.x,
    depth := s.depth + ctx.depth_dx,
    w_inv := s.w_inv + ctx.w_inv_dx,
    uv_over_w := s.uv_over_w.add ctx.uv_over_w_dx,
    pixel_index := s.pixel_index + 1 }

/-- The innermost loop, by the number of remaining x iterations. -/
def xLoop (ctx : RasterCtx) : ℕ → XState → Tile → Tile
  | 0, _, tile => tile
  | n + 1, s, tile => xLoop ctx n (xAdvance ctx s) (xStep ctx tile s)

/-- Initialisation of the innermost loop's running values at the start of a
row, from the row's barycentric coordinates. -/
def rowInit (ctx : RasterCtx) (a0 b0 g0 : ℚ) (pixel_index : ℕ) : XState :=
  { alpha_xy := a0, beta_xy := b0, gamma_xy := g0,
    depth := a0 * ctx.az + b0 * ctx.bz + g0 * ctx.cz,
    w_inv := a0 * ctx.w_inv_a + b0 * ctx.w_inv_b + g0 * ctx.w_inv_c,
    uv_over_w :=
      (Vec2.smul (a0 * ctx.w_inv_a) ctx.uv_a).add
        ((Vec2.smul (b0 * ctx.w_inv_b) ctx.uv_b).add
          (Vec2.smul (g0 * ctx.w_inv_c) ctx.uv_c)),
    pixel_index := pixel_index }

/-- The row (`for y in min_y..=max_y`) loop, by the number of remaining
rows; carries the row-start barycentric coordinates and the current `y`. -/
def yLoop (ctx : RasterCtx) (tile_size min_x steps_x : ℕ) :
    ℕ → ℚ × ℚ × ℚ → ℕ → Tile → Tile
  | 0, _, _, tile => tile
  | n + 1, r, y, tile =>
      let s0 := rowInit ctx r.1 r.2.1 r.2.2 (min_x + y * tile_size)
      let tile1 := xLoop ctx steps_x s0 tile
      yLoop ctx tile_size min_x steps_x n
        (r.1 + ctx.alpha_grad.y, r.2.1 + ctx.beta_grad.y, r.2.2 + ctx.gamma_grad.y)
        (y + 1) tile1

/-- The whole per-`binned_triangle` body of `Rasterizer::rasterize_threaded`
(both bounds of the box are inclusive, so the loops run
`max - min + 1` times). -/
def rasterBinnedTriangle (vertices : List Vec4) (uvs : List Vec2)
    (w_invs : List ℚ) (triangles : List ℕ) (texture : Option Texture)
    (tile_size x_offset y_offset : ℕ) (bt : BinnedTriangle) (tile : Tile) :
    Tile :=
  let ctx := mkCtx vertices uvs w_invs triangles texture x_offset y_offset bt
  yLoop ctx tile_size bt.min_x (bt.max_x + 1 - bt.min_x)
    (bt.max_y + 1 - bt.min_y) (ctx.alpha_00, ctx.beta_00, ctx.gamma_00)
    bt.min_y tile

/-- One binned triangle together with the geometry arrays it indexes into:
the data one iteration of the rasterizer's per-tile triangle loop reads. -/
structure DrawCmd where
  vertices : List Vec4
  uvs : List Vec2
  w_invs : List ℚ
  triangles : List ℕ
  texture : Option Texture
  bt : BinnedTriangle

/-- Run one binned triangle on a tile. -/
def runCmd (tile_size x_offset y_offset : ℕ) (cmd : DrawCmd) (tile : Tile) :
    Tile :=
  rasterBinnedTriangle cmd.vertices cmd.uvs cmd.w_invs cmd.triangles
    cmd.texture tile_size x_offset y_offset cmd.bt tile

/-- Run a sequence of binned triangles on a tile, in submission order. -/
def runCmds (tile_size x_offset y_offset : ℕ) (cmds : List DrawCmd)
    (tile : Tile) : Tile :=
  cmds.foldl (fun t c => runCmd tile_size x_offset y_offset c t) tile

/-- The context of one binned triangle of a draw command. -/
def DrawCmd.ctx (cmd : DrawCmd) (x_offset y_offset : ℕ) : RasterCtx :=
  mkCtx cmd.vertices cmd.uvs cmd.w_invs cmd.triangles cmd.texture
    x_offset y_offset cmd.bt

/-! Closed forms of the linearly-marched quantities of the inner loop (exact
in `ℚ`): the barycentric coordinates, depth, `1/w` and `uv/w` at the sample
of tile-relative pixel `(x, y)` of the box. -/

/-- Barycentric α at box pixel `(x, y)`. -/
def alphaAt (ctx : RasterCtx) (bt : BinnedTriangle) (x y : ℕ) : ℚ :=
  ctx.alpha_00 + (x - bt.min_x : ℕ) * ctx.alpha_grad.x
    + (y - bt.min_y : ℕ) * ctx.alpha_grad.y

/-- Barycentric β at box pixel `(x, y)`. -/
def betaAt (ctx : RasterCtx) (bt : BinnedTriangle) (x y : ℕ) : ℚ :=
  ctx.beta_00 + (x - bt.min_x : ℕ) * ctx.beta_grad.x
    + (y - bt.min_y : ℕ) * ctx.beta_grad.y

/-- Barycentric γ at box pixel `(x, y)`. -/
def gammaAt (ctx : RasterCtx) (bt : BinnedTriangle) (x y : ℕ) : ℚ :=
  ctx.gamma_00 + (x - bt.min_x : ℕ) * ctx.gamma_grad.x
    + (y - bt.min_y : ℕ) * ctx.gamma_grad.y

/-- Interpolated depth at box pixel `(x, y)`. -/
def depthAt (ctx : RasterCtx) (bt : BinnedTriangle) (x y : ℕ) : ℚ :=
  alphaAt ctx bt x y * ctx.az + betaAt ctx bt x y * ctx.bz
    + gammaAt ctx bt x y * ctx.cz

/-- Interpolated `1/w` at box pixel `(x, y)`. -/
def wInvAt (ctx : RasterCtx) (bt : BinnedTriangle) (x y : ℕ) : ℚ :=
  alphaAt ctx bt x y * ctx.w_inv_a + betaAt ctx bt x y * ctx.w_inv_b
    + gammaAt ctx bt x y * ctx.w_inv_c

/-- Interpolated `uv/w` at box pixel `(x, y)`. -/
def uvOverWAt (ctx : RasterCtx) (bt : BinnedTriangle) (x y : ℕ) : Vec2 :=
  (Vec2.smul (alphaAt ctx bt x y * ctx.w_inv_a) ctx.uv_a).add
    ((Vec2.smul (betaAt ctx bt x y * ctx.w_inv_b) ctx.uv_b).add
      (Vec2.smul (gammaAt ctx bt x y * ctx.w_inv_c) ctx.uv_c))

/-- Perspective-divided uv at box pixel `(x, y)`. -/
def uvAt (ctx : RasterCtx) (bt : BinnedTriangle) (x y : ℕ) : Vec2 :=
  (uvOverWAt ctx bt x y).divScalar (wInvAt ctx bt x y)

/-- The inside test of the inner loop at box pixel `(x, y)`. -/
def insideAt (ctx : RasterCtx) (bt : BinnedTriangle) (x y : ℕ) : Prop :=
  0 ≤ alphaAt ctx bt x y ∧ 0 ≤ betaAt ctx bt x y ∧ 0 ≤ gammaAt ctx bt x y

instance (ctx : RasterCtx) (bt : BinnedTriangle) (x y : ℕ) :
    Decidable (insideAt ctx bt x y) := by
  unfold insideAt; infer_instance

/-- The full write guard of the inner loop at box pixel `(x, y)` of a tile:
the pixel is inside the triangle and wins the depth test against the tile
state at the start of the triangle. -/
def fires (ctx : RasterCtx) (bt : BinnedTriangle) (tile_size : ℕ)
    (tile : Tile) (x y : ℕ) : Prop :=
  insideAt ctx bt x y ∧
    (depthAt ctx bt x y : WithTop ℚ) < tile.depth_buf (x + y * tile_size)

instance (ctx : RasterCtx) (bt : BinnedTriangle) (tile_size : ℕ)
    (tile : Tile) (x y : ℕ) : Decidable (fires ctx bt tile_size tile x y) := by
  unfold fires; infer_instance

/-- The four bytes the guarded write stores for a pixel with uv `uv`:
the sampled texel's channels (alpha forced to `255` when the texture has
fewer than four channels), or opaque black without a texture. -/
def texelBytes (ctx : RasterCtx) (uv : Vec2) (k : ℕ) : ℕ :=
  match ctx.texture with
  | some t => if k < ctx.nb_channels then (t.from_uv uv.x uv.y).getD k 0 else 255
  | none => [0, 0, 0, 255].getD k 0

/-! ### The tile blit of `Rasterizer::rasterize_threaded` -/

/-- `ptr::copy_nonoverlapping(src.add(srcStart), dst.add(dstStart), len)`
on byte buffers. -/
def copyBytes (src : ℕ → ℕ) (srcStart : ℕ) (dst : ℕ → ℕ)
    (dstStart len : ℕ) : ℕ → ℕ :=
  fun i => if dstStart ≤ i ∧ i < dstStart + len then src (srcStart + (i - dstStart)) else dst i

/-- The `for tile_row in 0..tile_size` row-copy loop of the blit, with its
`break` when the row passes the screen's height; by the number of remaining
rows, carrying the current `tile_row`. -/
def blitRows (tile_frame : ℕ → ℕ)
    (width height tile_size tile_x tile_y first_pixel_index : ℕ) :
    ℕ → ℕ → (ℕ → ℕ) → (ℕ → ℕ)
  | 0, _, frame => frame
  | n + 1, tile_row, frame =>
      if height ≤ tile_row + tile_y * tile_size then frame
      else
        let pixels_to_copy := min (width - tile_x * tile_size) tile_size
        let frame1 := copyBytes tile_frame (tile_row * tile_size * 4) frame
          ((first_pixel_index + tile_row * width) * 4) (pixels_to_copy * 4)
        blitRows tile_frame width height tile_size tile_x tile_y
          first_pixel_index n (tile_row + 1) frame1

/-- The blit of one tile's colour buffer into the output frame
(the per-tile body of the write-back loop of
`Rasterizer::rasterize_threaded`). -/
def blitTile (tile_frame : ℕ → ℕ) (width height tile_size tile_x tile_y : ℕ)
    (frame : ℕ → ℕ) : ℕ → ℕ :=
  let first_pixel_index := tile_x * tile_size + tile_y * tile_size * width
  blitRows tile_frame width height tile_size tile_x tile_y first_pixel_index
    tile_size 0 frame

/-- The output-frame pixel indices one tile's blit writes: rows until the
screen's bottom edge, columns until its right edge. -/
def tileCovered (width height tile_size tile_x tile_y : ℕ) : List ℕ :=
  (List.range (min tile_size (height - tile_y * tile_size))).flatMap
    (fun r => (List.range (min tile_size (width - tile_x * tile_size))).map
      (fun c => (tile_y * tile_size + r) * width + (tile_x * tile_size + c)))

/-! ### C8: the texture catalog -/

/-- Catalog invariant: names and ids are duplicate-free, every issued id is
in `[1, next_id)`, and the counter is at least `1`. -/
def CatInv (cat : TextureCatalog) : Prop :=
  (cat.texture_ids.map Prod.fst).Nodup ∧
  (cat.texture_ids.map Prod.snd).Nodup ∧
  (∀ e ∈ cat.texture_ids, 1 ≤ e.2 ∧ e.2 < cat.next_id) ∧
  1 ≤ cat.next_id

theorem idsLookup_eq_none (l : List (String × ℕ)) (name : String) :
    idsLookup l name = none ↔ ∀ e ∈ l, e.1 ≠ name := by
  simp [idsLookup, List.find?_eq_none]

/-- In a pair list with duplicate-free second components, entries agreeing
in the second component are equal. -/
theorem nodup_snd_inj {α β : Type} (l : List (α × β))
    (h : (l.map Prod.snd).Nodup) :
    ∀ e1 ∈ l, ∀ e2 ∈ l, e1.2 = e2.2 → e1 = e2 := by
  induction l with
  | nil => simp
  | cons a l ih =>
      simp only [List.map_cons, List.nodup_cons] at h
      obtain ⟨ha, hl⟩ := h
      intro e1 he1 e2 he2 heq
      rcases List.mem_cons.mp he1 with he1 | he1 <;>
        rcases List.mem_cons.mp he2 with he2 | he2
      · rw [he1, he2]
      · exact absurd (List.mem_map_of_mem Prod.snd he2)
          (by rw [← heq, he1]; exact ha)
      · exact absurd (List.mem_map_of_mem Prod.snd he1)
          (by rw [heq, he2]; exact ha)
      · exact ih hl e1 he1 e2 he2 heq

/-- C8: `add_texture` on a taken name errors with the name and the existing
id and leaves the catalog untouched; on a fresh name it returns the current
counter value and bumps the counter, so ids of successive successful inserts
strictly increase; the invariant (hence injectivity of the name-to-id map)
holds for `new` and is preserved. -/
theorem add_texture_spec (cat : TextureCatalog) (name : String) (texture : Texture) :
    (∀ id, idsLookup cat.texture_ids name = some id →
      cat.add_texture name texture
        = (.error (.TextureNameAlreadyExists name id), cat)) ∧
    (idsLookup cat.texture_ids name = none →
      cat.add_texture name texture
        = (.ok cat.next_id,
            { next_id := cat.next_id + 1,
              textures := cat.textures ++ [(cat.next_id, texture)],
              texture_ids := cat.texture_ids ++ [(name, cat.next_id)] })) ∧
    CatInv TextureCatalog.new ∧
    (CatInv cat → CatInv (cat.add_texture name texture).2) ∧
    (CatInv cat →
      ∀ e1 ∈ (cat.add_texture name texture).2.texture_ids,
        ∀ e2 ∈ (cat.add_texture name texture).2.texture_ids,
          e1.2 = e2.2 → e1 = e2) ∧
    (∀ name2 texture2 id1 id2 cat1 cat2,
      cat.add_texture name texture = (.ok id1, cat1) →
      cat1.add_texture name2 texture2 = (.ok id2, cat2) →
      id1 < id2) := by
  have herr : ∀ id, idsLookup cat.texture_ids name = some id →
      cat.add_texture name texture
        = (.error (.TextureNameAlreadyExists name id), cat) := by
    intro id h
    simp [TextureCatalog.add_texture, h]
  have hok : idsLookup cat.texture_ids name = none →
      cat.add_texture name texture
        = (.ok cat.next_id,
            { next_id := cat.next_id + 1,
              textures := cat.textures ++ [(cat.next_id, texture)],
              texture_ids := cat.texture_ids ++ [(name, cat.next_id)] }) := by
    intro h
    simp [TextureCatalog.add_texture, h]
  have hpres : CatInv cat → CatInv (cat.add_texture name texture).2 := by
    intro hinv
    rcases hlk : idsLookup cat.texture_ids name with _ | id
    · rw [hok hlk]
      dsimp only
      obtain ⟨hn, hi, hb, hc⟩ := hinv
      refine ⟨?_, ?_, ?_, ?_⟩
      · simp only [List.map_append, List.map_cons, List.map_nil]
        rw [List.nodup_append]
        refine ⟨hn, List.nodup_singleton _, ?_⟩
        intro a ha hb2
        rcases List.mem_map.mp ha with ⟨e, he, rfl⟩
        have := (idsLookup_eq_none _ _).mp hlk e he
        simp at hb2
        exact this hb2
      · simp only [List.map_append, List.map_cons, List.map_nil]
        rw [List.nodup_append]
        refine ⟨hi, List.nodup_singleton _, ?_⟩
        intro a ha hb2
        rcases List.mem_map.mp ha with ⟨e, he, rfl⟩
        simp at hb2
        have := (hb e he).2
        omega
      · intro e he
        rcases List.mem_append.mp he with he | he
        · have := hb e he
          refine ⟨this.1, ?_⟩
          show e.2 < cat.next_id + 1
          omega
        · simp at he
          subst he
          exact ⟨hc, Nat.lt_succ_self _⟩
      · show 1 ≤ cat.next_id + 1
        omega
    · rw [herr id hlk]
      exact hinv
  refine ⟨herr, hok, ?_, hpres, ?_, ?_⟩
  · refine ⟨List.nodup_nil, List.nodup_nil, ?_, le_refl 1⟩
    intro e he
    simp [TextureCatalog.new] at he
  · intro hinv
    obtain ⟨_, hi, _, _⟩ := hpres hinv
    exact nodup_snd_inj _ hi
  · intro name2 texture2 id1 id2 cat1 cat2 h1 h2
    rcases hlk : idsLookup cat.texture_ids name with _ | id
    · rw [hok hlk] at h1
      simp only [Prod.mk.injEq, Except.ok.injEq] at h1
      obtain ⟨hid1, hcat1⟩ := h1
      rcases hlk2 : idsLookup cat1.texture_ids name2 with _ | id'
      · rw [TextureCatalog.add_texture, hlk2] at h2
        simp only [Prod.mk.injEq, Except.ok.injEq] at h2
        have hid2 : cat1.next_id = id2 := h2.1
        have : cat1.next_id = cat.next_id + 1 := by rw [← hcat1]
        omega
      · rw [TextureCatalog.add_texture, hlk2] at h2
        simp at h2
    · rw [herr id hlk] at h1
      simp at h1

/-! ### C6: the tile blit -/

/-- Decompose a row-major pixel index: row and column are determined. -/
theorem rowcol_inj (W x x' y y' : ℕ) (hx : x < W) (hx' : x' < W)
    (h : y * W + x = y' * W + x') : y = y' ∧ x = x' := by
  have hW : 0 < W := Nat.pos_of_ne_zero (by rintro rfl; omega)
  have e1 : (y * W + x) / W = y := by
    rw [Nat.add_comm, Nat.add_mul_div_right _ _ hW, Nat.div_eq_of_lt hx, Nat.zero_add]
  have e2 : (y' * W + x') / W = y' := by
    rw [Nat.add_comm, Nat.add_mul_div_right _ _ hW, Nat.div_eq_of_lt hx', Nat.zero_add]
  have hy : y = y' := by rw [← e1, ← e2, h]
  subst hy
  exact ⟨rfl, Nat.add_left_cancel h⟩

theorem blitRows_untouched (tf : ℕ → ℕ) (W H T tx ty fpi : ℕ) :
    ∀ (n row0 : ℕ) (frame : ℕ → ℕ) (i : ℕ),
      (∀ r, row0 ≤ r → r < row0 + n → r + ty * T < H →
        ¬((fpi + r * W) * 4 ≤ i ∧
          i < (fpi + r * W) * 4 + min (W - tx * T) T * 4)) →
      blitRows tf W H T tx ty fpi n row0 frame i = frame i := by
  intro n
  induction n with
  | zero => intro row0 frame i _; rfl
  | succ n ih =>
      intro row0 frame i h
      rw [blitRows]
      by_cases hrow : H ≤ row0 + ty * T
      · rw [if_pos hrow]
      · rw [if_neg hrow]
        rw [ih (row0 + 1) _ i ?_]
        · show copyBytes tf (row0 * T * 4) frame ((fpi + row0 * W) * 4)
            (min (W - tx * T) T * 4) i = frame i
          rw [copyBytes, if_neg]
          exact h row0 (le_refl row0) (by omega) (not_le.mp hrow)
        · intro r hr1 hr2 hr3
          exact h r (by omega) (by omega) hr3

theorem blitRows_hit (tf : ℕ → ℕ) (W H T tx ty fpi : ℕ) :
    ∀ (n row0 : ℕ) (frame : ℕ → ℕ) (r i : ℕ),
      row0 ≤ r → r < row0 + n → r + ty * T < H →
      (fpi + r * W) * 4 ≤ i →
      i < (fpi + r * W) * 4 + min (W - tx * T) T * 4 →
      blitRows tf W H T tx ty fpi n row0 frame i
        = tf (r * T * 4 + (i - (fpi + r * W) * 4)) := by
  intro n
  induction n with
  | zero => intro row0 frame r i h1 h2; omega
  | succ n ih =>
      intro row0 frame r i h1 h2 h3 h4 h5
      have hptc : min (W - tx * T) T ≤ W := le_trans (min_le_left _ _) (Nat.sub_le _ _)
      rw [blitRows]
      by_cases hrow : H ≤ row0 + ty * T
      · exfalso
        have : row0 + ty * T ≤ r + ty * T := by omega
        omega
      · rw [if_neg hrow]
        rcases Nat.eq_or_lt_of_le h1 with heq | hgt
        · rw [blitRows_untouched tf W H T tx ty fpi n (row0 + 1) _ i ?_]
          · show copyBytes tf (row0 * T * 4) frame ((fpi + row0 * W) * 4)
              (min (W - tx * T) T * 4) i
              = tf (r * T * 4 + (i - (fpi + r * W) * 4))
            rw [← heq] at h4 h5 ⊢
            rw [copyBytes, if_pos ⟨h4, h5⟩]
          · intro r2 hra hrb hrc hcon
            rw [← heq] at h4 h5
            have h7 : (row0 + 1) * W ≤ r2 * W := Nat.mul_le_mul_right W hra
            have h8 : row0 * W + W = (row0 + 1) * W := by ring
            omega
        · exact ih (row0 + 1) _ r i hgt (by omega) h3 h4 h5

theorem tileCovered_mem (width height tile_size tile_x tile_y p : ℕ) :
    p ∈ tileCovered width height tile_size tile_x tile_y ↔
      ∃ r < min tile_size (height - tile_y * tile_size),
        ∃ c < min tile_size (width - tile_x * tile_size),
          p = (tile_y * tile_size + r) * width + (tile_x * tile_size + c) := by
  simp only [tileCovered, List.mem_flatMap, List.mem_map, List.mem_range]
  constructor
  · rintro ⟨r, hr, c, hc, rfl⟩
    exact ⟨r, hr, c, hc, rfl⟩
  · rintro ⟨r, hr, c, hc, rfl⟩
    exact ⟨r, hr, c, hc, rfl⟩

/-- C6: each tile's blit covers exactly
`min(T, W − x₀) × min(T, H − y₀)` distinct output pixels (rows at or beyond
the screen height are skipped, each written row holds
`min(T, W − x₀)` pixels), distinct tiles never write a common pixel, the
covered bytes receive the tile's bytes, and all other frame pixels are left
unchanged. -/
theorem blit_covers_exactly (width height tile_size : ℕ) (hT : 0 < tile_size)
    (tile_x tile_y : ℕ) (htx : tile_x * tile_size < width)
    (hty : tile_y * tile_size < height) :
    (tileCovered width height tile_size tile_x tile_y).length
      = min tile_size (width - tile_x * tile_size)
        * min tile_size (height - tile_y * tile_size) ∧
    (tileCovered width height tile_size tile_x tile_y).Nodup ∧
    (∀ tile_x2 tile_y2, tile_x2 * tile_size < width →
      tile_y2 * tile_size < height → (tile_x, tile_y) ≠ (tile_x2, tile_y2) →
      ∀ p ∈ tileCovered width height tile_size tile_x tile_y,
        p ∉ tileCovered width height tile_size tile_x2 tile_y2) ∧
    (∀ tile_frame frame r c,
      r < min tile_size (height - tile_y * tile_size) →
      c < min tile_size (width - tile_x * tile_size) → ∀ k < 4,
      blitTile tile_frame width height tile_size tile_x tile_y frame
          (((tile_y * tile_size + r) * width + (tile_x * tile_size + c)) * 4 + k)
        = tile_frame ((r * tile_size + c) * 4 + k)) ∧
    (∀ tile_frame frame p,
      p ∉ tileCovered width height tile_size tile_x tile_y → ∀ k < 4,
      blitTile tile_frame width height tile_size tile_x tile_y frame (p * 4 + k)
        = frame (p * 4 + k)) := by
  have hcol : ∀ c, c < min tile_size (width - tile_x * tile_size) →
      tile_x * tile_size + c < width := by
    intro c hc
    have := min_le_right tile_size (width - tile_x * tile_size)
    omega
  refine ⟨?_, ?_, ?_, ?_, ?_⟩
  · simp only [tileCovered]
    rw [List.length_flatMap]
    simp only [Function.comp_def, List.length_map, List.length_range]
    rw [List.map_const', List.sum_replicate, smul_eq_mul, List.length_range,
      Nat.mul_comm]
  · simp only [tileCovered]
    rw [List.nodup_flatMap]
    constructor
    · intro r _
      refine List.Nodup.map ?_ (List.nodup_range _)
      intro c1 c2 h
      dsimp only at h
      omega
    · refine List.Pairwise.imp ?_ (List.pairwise_lt_range _)
      intro r1 r2 hlt
      rw [Function.onFun_apply, List.disjoint_left]
      intro p hp1 hp2
      rcases List.mem_map.mp hp1 with ⟨c1, hc1m, rfl⟩
      rcases List.mem_map.mp hp2 with ⟨c2, hc2m, he⟩
      rw [List.mem_range] at hc1m hc2m
      have hcol1 := hcol c1 hc1m
      have hcol2 := hcol c2 hc2m
      obtain ⟨hy, hx⟩ := rowcol_inj width _ _ _ _ hcol2 hcol1 he
      omega
  · intro tile_x2 tile_y2 htx2 hty2 hne p hp1 hp2
    rw [tileCovered_mem] at hp1 hp2
    obtain ⟨r1, hr1, c1, hc1, rfl⟩ := hp1
    obtain ⟨r2, hr2, c2, hc2, he⟩ := hp2
    have hcol1 := hcol c1 hc1
    have hcol2 : tile_x2 * tile_size + c2 < width := by
      have := min_le_right tile_size (width - tile_x2 * tile_size)
      omega
    obtain ⟨hrow, hcolumn⟩ := rowcol_inj width _ _ _ _ hcol1 hcol2 he
    have hrr : r1 < tile_size := lt_of_lt_of_le hr1 (min_le_left _ _)
    have hrr2 : r2 < tile_size := lt_of_lt_of_le hr2 (min_le_left _ _)
    have hcc : c1 < tile_size := lt_of_lt_of_le hc1 (min_le_left _ _)
    have hcc2 : c2 < tile_size := lt_of_lt_of_le hc2 (min_le_left _ _)
    obtain ⟨hy, _⟩ := rowcol_inj tile_size r1 r2 tile_y tile_y2 hrr hrr2 hrow
    obtain ⟨hx, _⟩ := rowcol_inj tile_size c1 c2 tile_x tile_x2 hcc hcc2 hcolumn
    exact hne (by rw [hy, hx])
  · intro tile_frame frame r c hr hc k hk
    have hrT : r < tile_size := lt_of_lt_of_le hr (min_le_left _ _)
    have hrH : r + tile_y * tile_size < height := by
      have := min_le_right tile_size (height - tile_y * tile_size)
      omega
    have hcW := hcol c hc
    have hptc : c < min (width - tile_x * tile_size) tile_size := by
      rw [min_comm]
      exact hc
    have hdst : ((tile_y * tile_size + r) * width + (tile_x * tile_size + c)) * 4 + k
        = (tile_x * tile_size + tile_y * tile_size * width + r * width) * 4
          + (c * 4 + k) := by ring
    rw [blitTile]
    rw [blitRows_hit tile_frame width height tile_size tile_x tile_y
      (tile_x * tile_size + tile_y * tile_size * width) tile_size 0 frame r
      (((tile_y * tile_size + r) * width + (tile_x * tile_size + c)) * 4 + k)
      (Nat.zero_le r) (by omega) hrH (by rw [hdst]; omega)
      (by rw [hdst]
          have hc1 : c + 1 ≤ min (width - tile_x * tile_size) tile_size := hptc
          omega)]
    congr 1
    rw [hdst]
    have hsub : (tile_x * tile_size + tile_y * tile_size * width + r * width) * 4
          + (c * 4 + k)
          - (tile_x * tile_size + tile_y * tile_size * width + r * width) * 4
        = c * 4 + k := by omega
    rw [hsub]
    ring
  · intro tile_frame frame p hp k hk
    rw [blitTile]
    rw [blitRows_untouched]
    intro r hr0 hrn hrH hcon
    apply hp
    rw [tileCovered_mem]
    obtain ⟨hlo, hhi⟩ := hcon
    have hple : tile_x * tile_size + tile_y * tile_size * width + r * width ≤ p := by
      omega
    have hphi : p < tile_x * tile_size + tile_y * tile_size * width + r * width
        + min (width - tile_x * tile_size) tile_size := by
      omega
    refine ⟨r, by omega, p - (tile_x * tile_size + tile_y * tile_size * width + r * width),
      ?_, ?_⟩
    · rw [min_comm]
      omega
    · have heq2 : (tile_y * tile_size + r) * width + tile_x * tile_size
          = tile_x * tile_size + tile_y * tile_size * width + r * width := by ring
      omega

/-! ### C1 and C5: the rasterizer inner loop -/

theorem updByte_apply (f : ℕ → ℕ) (i v j : ℕ) :
    updByte f i v j = if j = i then v else f j := rfl

theorem updDepth_apply (f : ℕ → WithTop ℚ) (i : ℕ) (v : WithTop ℚ) (j : ℕ) :
    updDepth f i v j = if j = i then v else f j := rfl

theorem writeBytes_apply (l : List ℕ) : ∀ (f : ℕ → ℕ) (start i : ℕ),
    writeBytes f start l i
      = if start ≤ i ∧ i < start + l.length then l.getD (i - start) 0 else f i := by
  induction l with
  | nil =>
      intro f start i
      rw [writeBytes, if_neg (by simp only [List.length_nil]; omega)]
  | cons b rest ih =>
      intro f start i
      rw [writeBytes, ih]
      by_cases h1 : start + 1 ≤ i ∧ i < start + 1 + rest.length
      · rw [if_pos h1, if_pos (by simp only [List.length_cons]; omega)]
        have hsub : i - start = (i - (start + 1)) + 1 := by omega
        rw [hsub, List.getD_cons_succ]
      · rw [if_neg h1]
        by_cases h2 : i = start
        · subst h2
          rw [updByte_apply, if_pos rfl, if_pos (by simp only [List.length_cons]; omega)]
          simp
        · rw [updByte_apply, if_neg h2, if_neg]
          simp only [List.length_cons]
          omega

/-- Well-formedness of the texture a raster context carries: the channel
count matches and the byte buffer has the advertised size. -/
def ctxTexOk (ctx : RasterCtx) : Prop :=
  ∀ t, ctx.texture = some t →
    ctx.nb_channels = t.nb_chanels ∧
    t.pixels.length = t.width * t.height * t.nb_chanels ∧
    0 < t.width ∧ 0 < t.height

/-- Linear pixel addressing stays within a `w × h × nb` buffer. -/
theorem index_bound (w1 h1 nb x y : ℕ) (hx : x ≤ w1) (hy : y ≤ h1) :
    (x + y * (w1 + 1)) * nb + nb ≤ (w1 + 1) * (h1 + 1) * nb := by
  have hmul : y * (w1 + 1) ≤ h1 * (w1 + 1) := Nat.mul_le_mul_right _ hy
  have hcell : x + y * (w1 + 1) + 1 ≤ (w1 + 1) * (h1 + 1) := by
    have hring : w1 + h1 * (w1 + 1) + 1 = (w1 + 1) * (h1 + 1) := by ring
    omega
  calc (x + y * (w1 + 1)) * nb + nb = (x + y * (w1 + 1) + 1) * nb := by ring
  _ ≤ (w1 + 1) * (h1 + 1) * nb := Nat.mul_le_mul_right nb hcell

/-- A well-formed texture's `from_uv` slice always holds a full pixel. -/
theorem from_uv_length (t : Texture)
    (hlen : t.pixels.length = t.width * t.height * t.nb_chanels)
    (hw : 0 < t.width) (hh : 0 < t.height) (u v : ℚ) :
    (t.from_uv u v).length = t.nb_chanels := by
  obtain ⟨pixels, width, height, format⟩ := t
  simp only [Texture.nb_chanels] at hlen hw hh ⊢
  obtain ⟨w1, rfl⟩ : ∃ w1, width = w1 + 1 := ⟨width - 1, by omega⟩
  obtain ⟨h1, rfl⟩ : ∃ h1, height = h1 + 1 := ⟨height - 1, by omega⟩
  have hxle : min (f64ToUsize ((u - ratTrunc u) * ((w1 + 1 : ℕ) : ℚ)))
      (w1 + 1 - 1) ≤ w1 := by omega
  have hyle : min (f64ToUsize ((v - ratTrunc v) * ((h1 + 1 : ℕ) : ℚ)))
      (h1 + 1 - 1) ≤ h1 := by omega
  rcases format with _ | _
  · simp only [Texture.from_uv, List.length_take, List.length_drop] at hlen ⊢
    rw [hlen]
    have := index_bound w1 h1 4
      (min (f64ToUsize ((u - ratTrunc u) * ((w1 + 1 : ℕ) : ℚ))) (w1 + 1 - 1))
      (min (f64ToUsize ((v - ratTrunc v) * ((h1 + 1 : ℕ) : ℚ))) (h1 + 1 - 1))
      hxle hyle
    omega
  · simp only [Texture.from_uv, List.length_take, List.length_drop] at hlen ⊢
    rw [hlen]
    have := index_bound w1 h1 3
      (min (f64ToUsize ((u - ratTrunc u) * ((w1 + 1 : ℕ) : ℚ))) (w1 + 1 - 1))
      (min (f64ToUsize ((v - ratTrunc v) * ((h1 + 1 : ℕ) : ℚ))) (h1 + 1 - 1))
      hxle hyle
    omega

/-- `xStep` leaves the depth of other pixels and the bytes of other pixels
unchanged. -/
theorem xStep_other (ctx : RasterCtx) (tile : Tile) (s : XState) (p : ℕ)
    (hp : p ≠ s.pixel_index) :
    (xStep ctx tile s).depth_buf p = tile.depth_buf p ∧
    ∀ k < 4, (xStep ctx tile s).frame_buf (4 * p + k) = tile.frame_buf (4 * p + k) := by
  simp only [xStep]
  by_cases hg : (0 ≤ s.alpha_xy ∧ 0 ≤ s.beta_xy ∧ 0 ≤ s.gamma_xy) ∧
      (s.depth : WithTop ℚ) < tile.depth_buf s.pixel_index
  · rw [if_pos hg]
    refine ⟨by dsimp only; rw [updDepth_apply, if_neg hp], ?_⟩
    intro k hk
    rcases htex : ctx.texture with _ | t
    · simp only [htex]
      rw [writeBytes_apply, if_neg (by simp only [List.length_cons, List.length_nil]; omega)]
    · simp only [htex]
      have hcl : (t.from_uv (s.uv_over_w.divScalar s.w_inv).x
          (s.uv_over_w.divScalar s.w_inv).y).length ≤ 4 := by
        rw [Texture.from_uv]
        rcases t.format with _ | _ <;>
          simp only [List.length_take, List.length_drop] <;> omega
      by_cases hnb : ctx.nb_channels ≠ 4
      · rw [if_pos hnb, updByte_apply, if_neg (by omega), writeBytes_apply, if_neg]
        omega
      · rw [if_neg hnb, writeBytes_apply, if_neg]
        omega
  · rw [if_neg hg]
    exact ⟨rfl, fun k _ => rfl⟩

/-- When the guard fires, `xStep` stores the carried depth and the sampled
texel bytes at the step's pixel. -/
theorem xStep_hit (ctx : RasterCtx) (tile : Tile) (s : XState)
    (hg : (0 ≤ s.alpha_xy ∧ 0 ≤ s.beta_xy ∧ 0 ≤ s.gamma_xy) ∧
      (s.depth : WithTop ℚ) < tile.depth_buf s.pixel_index) :
    (xStep ctx tile s).depth_buf s.pixel_index = (s.depth : WithTop ℚ) ∧
    (ctxTexOk ctx → ∀ k < 4, (xStep ctx tile s).frame_buf (4 * s.pixel_index + k)
      = texelBytes ctx (s.uv_over_w.divScalar s.w_inv) k) := by
  simp only [xStep]
  rw [if_pos hg]
  refine ⟨by dsimp only; rw [updDepth_apply, if_pos rfl], ?_⟩
  intro hok k hk
  rcases htex : ctx.texture with _ | t
  · simp only [htex, texelBytes]
    rw [writeBytes_apply,
      if_pos (by simp only [List.length_cons, List.length_nil]; omega)]
    congr 1
    omega
  · obtain ⟨hnb, hplen, hw, hh⟩ := hok t htex
    have hlen := from_uv_length t hplen hw hh
      (s.uv_over_w.divScalar s.w_inv).x (s.uv_over_w.divScalar s.w_inv).y
    have hnb34 : t.nb_chanels = 3 ∨ t.nb_chanels = 4 := by
      rw [Texture.nb_chanels]
      rcases t.format with _ | _
      · exact Or.inr rfl
      · exact Or.inl rfl
    simp only [htex, texelBytes]
    by_cases hnb4 : ctx.nb_channels ≠ 4
    · rw [if_pos hnb4, updByte_apply]
      have hnb3 : ctx.nb_channels = 3 := by omega
      by_cases hk3 : k = 3
      · subst hk3
        rw [if_pos rfl, if_neg (by omega)]
      · rw [if_neg (by omega), writeBytes_apply,
          if_pos (by rw [hlen]; omega), if_pos (by omega)]
        congr 1
        omega
    · rw [if_neg hnb4, writeBytes_apply, if_pos (by rw [hlen]; omega),
        if_pos (by omega)]
      congr 1
      omega

theorem xStep_miss (ctx : RasterCtx) (tile : Tile) (s : XState)
    (hg : ¬ ((0 ≤ s.alpha_xy ∧ 0 ≤ s.beta_xy ∧ 0 ≤ s.gamma_xy) ∧
      (s.depth : WithTop ℚ) < tile.depth_buf s.pixel_index)) :
    xStep ctx tile s = tile := by
  rw [xStep, if_neg hg]

theorem xAdvance_fields (ctx : RasterCtx) (s : XState) :
    (xAdvance ctx s).alpha_xy = s.alpha_xy + ctx.alpha_grad.x ∧
    (xAdvance ctx s).beta_xy = s.beta_xy + ctx.beta_grad.x ∧
    (xAdvance ctx s).gamma_xy = s.gamma_xy + ctx.gamma_grad.x ∧
    (xAdvance ctx s).depth = s.depth + ctx.depth_dx ∧
    (xAdvance ctx s).w_inv = s.w_inv + ctx.w_inv_dx ∧
    (xAdvance ctx s).uv_over_w = s.uv_over_w.add ctx.uv_over_w_dx ∧
    (xAdvance ctx s).pixel_index = s.pixel_index + 1 :=
  ⟨rfl, rfl, rfl, rfl, rfl, rfl, rfl⟩

theorem vec2_add_smul_succ (v dx : Vec2) (j : ℕ) :
    (v.add dx).add (Vec2.smul (j : ℚ) dx) = v.add (Vec2.smul ((j + 1 : ℕ) : ℚ) dx) := by
  obtain ⟨vx, vy⟩ := v
  obtain ⟨dxx, dxy⟩ := dx
  simp only [Vec2.add, Vec2.smul, Vec2.mk.injEq]
  constructor <;> push_cast <;> ring

theorem xLoop_untouched (ctx : RasterCtx) :
    ∀ (n : ℕ) (s : XState) (tile : Tile) (p : ℕ),
      (∀ j < n, s.pixel_index + j ≠ p) →
      (xLoop ctx n s tile).depth_buf p = tile.depth_buf p ∧
      ∀ k < 4, (xLoop ctx n s tile).frame_buf (4 * p + k)
        = tile.frame_buf (4 * p + k) := by
  intro n
  induction n with
  | zero => intro s tile p _; exact ⟨rfl, fun k _ => rfl⟩
  | succ n ih =>
      intro s tile p h
      rw [xLoop]
      have hstep := xStep_other ctx tile s p
        (by have := h 0 (by omega); omega)
      have hrec := ih (xAdvance ctx s) (xStep ctx tile s) p ?_
      · exact ⟨hrec.1.trans hstep.1, fun k hk => (hrec.2 k hk).trans (hstep.2 k hk)⟩
      · intro j hj
        have := h (j + 1) (by omega)
        rw [(xAdvance_fields ctx s).2.2.2.2.2.2]
        omega

/-- The single-pixel characterisation of the innermost loop: at step `j`,
the loop either fires (leaving the closed-form depth and the texel bytes of
the closed-form uv) or leaves the pixel untouched, the guard being exactly
the inside test and depth test against the tile state at loop entry. -/
theorem xLoop_get (ctx : RasterCtx) :
    ∀ (n : ℕ) (s : XState) (tile : Tile) (j : ℕ), j < n →
      (¬ ((0 ≤ s.alpha_xy + j * ctx.alpha_grad.x ∧
            0 ≤ s.beta_xy + j * ctx.beta_grad.x ∧
            0 ≤ s.gamma_xy + j * ctx.gamma_grad.x) ∧
          ((s.depth + j * ctx.depth_dx : ℚ) : WithTop ℚ)
            < tile.depth_buf (s.pixel_index + j)) →
        (xLoop ctx n s tile).depth_buf (s.pixel_index + j)
            = tile.depth_buf (s.pixel_index + j) ∧
        ∀ k < 4, (xLoop ctx n s tile).frame_buf (4 * (s.pixel_index + j) + k)
            = tile.frame_buf (4 * (s.pixel_index + j) + k)) ∧
      (((0 ≤ s.alpha_xy + j * ctx.alpha_grad.x ∧
            0 ≤ s.beta_xy + j * ctx.beta_grad.x ∧
            0 ≤ s.gamma_xy + j * ctx.gamma_grad.x) ∧
          ((s.depth + j * ctx.depth_dx : ℚ) : WithTop ℚ)
            < tile.depth_buf (s.pixel_index + j)) →
        (xLoop ctx n s tile).depth_buf (s.pixel_index + j)
            = ((s.depth + j * ctx.depth_dx : ℚ) : WithTop ℚ) ∧
        (ctxTexOk ctx → ∀ k < 4,
          (xLoop ctx n s tile).frame_buf (4 * (s.pixel_index + j) + k)
            = texelBytes ctx
                ((s.uv_over_w.add (Vec2.smul (j : ℚ) ctx.uv_over_w_dx)).divScalar
                  (s.w_inv + j * ctx.w_inv_dx)) k)) := by
  intro n
  induction n with
  | zero => intro s tile j hj; omega
  | succ n ih =>
      intro s tile j hj
      rcases j with _ | j
      · -- step 0: the pixel is processed now, the tail never revisits it
        simp only [Nat.cast_zero, zero_mul, add_zero, Nat.add_zero]
        have hzsmul : s.uv_over_w.add (Vec2.smul (0 : ℚ) ctx.uv_over_w_dx)
            = s.uv_over_w := by
          obtain ⟨ux, uy⟩ := s.uv_over_w
          simp [Vec2.add, Vec2.smul]
        rw [xLoop]
        have htail := xLoop_untouched ctx n (xAdvance ctx s) (xStep ctx tile s)
          s.pixel_index ?_
        · constructor
          · intro hg
            rw [xStep_miss ctx tile s hg] at htail ⊢
            exact htail
          · intro hg
            have hhit := xStep_hit ctx tile s hg
            refine ⟨htail.1.trans hhit.1, ?_⟩
            intro hok k hk
            rw [htail.2 k hk, hhit.2 hok k hk, hzsmul]
        · intro i hi
          rw [(xAdvance_fields ctx s).2.2.2.2.2.2]
          omega
      · -- step j+1: the head step does not touch the pixel; recurse
        rw [xLoop]
        have hother := xStep_other ctx tile s (s.pixel_index + (j + 1))
          (by omega)
        have hadv := xAdvance_fields ctx s
        have hrec := ih (xAdvance ctx s) (xStep ctx tile s) j (by omega)
        rw [hadv.1, hadv.2.1, hadv.2.2.1, hadv.2.2.2.1, hadv.2.2.2.2.1,
          hadv.2.2.2.2.2.1, hadv.2.2.2.2.2.2] at hrec
        have hpix : s.pixel_index + 1 + j = s.pixel_index + (j + 1) := by omega
        rw [hpix] at hrec
        have hca : s.alpha_xy + ctx.alpha_grad.x + (j : ℚ) * ctx.alpha_grad.x
            = s.alpha_xy + ((j + 1 : ℕ) : ℚ) * ctx.alpha_grad.x := by
          push_cast
          ring
        have hcb : s.beta_xy + ctx.beta_grad.x + (j : ℚ) * ctx.beta_grad.x
            = s.beta_xy + ((j + 1 : ℕ) : ℚ) * ctx.beta_grad.x := by
          push_cast
          ring
        have hcg : s.gamma_xy + ctx.gamma_grad.x + (j : ℚ) * ctx.gamma_grad.x
            = s.gamma_xy + ((j + 1 : ℕ) : ℚ) * ctx.gamma_grad.x := by
          push_cast
          ring
        have hcd : s.depth + ctx.depth_dx + (j : ℚ) * ctx.depth_dx
            = s.depth + ((j + 1 : ℕ) : ℚ) * ctx.depth_dx := by
          push_cast
          ring
        have hcw : s.w_inv + ctx.w_inv_dx + (j : ℚ) * ctx.w_inv_dx
            = s.w_inv + ((j + 1 : ℕ) : ℚ) * ctx.w_inv_dx := by
          push_cast
          ring
        rw [hca, hcb, hcg, hcd, hcw, vec2_add_smul_succ, hother.1] at hrec
        constructor
        · intro hg
          obtain ⟨hd, hf⟩ := hrec.1 hg
          refine ⟨hd, ?_⟩
          intro k hk
          exact (hf k hk).trans (hother.2 k hk)
        · intro hg
          exact hrec.2 hg

theorem uvOverW_shift (uva uvb uvc : Vec2) (wa wb wc ga gb gc a b g t : ℚ) :
    ((Vec2.smul (a * wa) uva).add
        ((Vec2.smul (b * wb) uvb).add (Vec2.smul (g * wc) uvc))).add
      (Vec2.smul t ((Vec2.smul (ga * wa) uva).add
        ((Vec2.smul (gb * wb) uvb).add (Vec2.smul (gc * wc) uvc))))
    = (Vec2.smul ((a + t * ga) * wa) uva).add
        ((Vec2.smul ((b + t * gb) * wb) uvb).add
          (Vec2.smul ((g + t * gc) * wc) uvc)) := by
  obtain ⟨ax, ay⟩ := uva
  obtain ⟨bx, by2⟩ := uvb
  obtain ⟨cx, cy⟩ := uvc
  simp only [Vec2.add, Vec2.smul, Vec2.mk.injEq]
  constructor <;> ring

theorem yLoop_untouched (ctx : RasterCtx) (tile_size min_x steps_x : ℕ) :
    ∀ (rows : ℕ) (r0 : ℚ × ℚ × ℚ) (y0 : ℕ) (tile : Tile) (p : ℕ),
      (∀ jy < rows, ∀ jx < steps_x, min_x + jx + (y0 + jy) * tile_size ≠ p) →
      (yLoop ctx tile_size min_x steps_x rows r0 y0 tile).depth_buf p
          = tile.depth_buf p ∧
      ∀ k < 4, (yLoop ctx tile_size min_x steps_x rows r0 y0 tile).frame_buf
          (4 * p + k) = tile.frame_buf (4 * p + k) := by
  intro rows
  induction rows with
  | zero => intro r0 y0 tile p _; exact ⟨rfl, fun k _ => rfl⟩
  | succ n ih =>
      intro r0 y0 tile p h
      rw [yLoop]
      have hrow := xLoop_untouched ctx steps_x
        (rowInit ctx r0.1 r0.2.1 r0.2.2 (min_x + y0 * tile_size)) tile p ?_
      · have hrec := ih (r0.1 + ctx.alpha_grad.y, r0.2.1 + ctx.beta_grad.y,
          r0.2.2 + ctx.gamma_grad.y) (y0 + 1)
          (xLoop ctx steps_x
            (rowInit ctx r0.1 r0.2.1 r0.2.2 (min_x + y0 * tile_size)) tile) p ?_
        · exact ⟨hrec.1.trans hrow.1, fun k hk => (hrec.2 k hk).trans (hrow.2 k hk)⟩
        · intro jy hjy jx hjx
          have := h (jy + 1) (by omega) jx hjx
          have hyy : y0 + 1 + jy = y0 + (jy + 1) := by omega
          rw [hyy]
          exact this
      · intro j hj
        have hne := h 0 (by omega) j hj
        have hyz : y0 + 0 = y0 := rfl
        rw [hyz] at hne
        show min_x + y0 * tile_size + j ≠ p
        omega

/-- Row-and-column characterisation of the per-triangle raster loops, for a
context whose per-x derivative fields are consistent with its vertex
attribute fields (as `mkCtx` builds them). -/
theorem yLoop_get (ctx : RasterCtx) (tile_size min_x steps_x : ℕ)
    (hcols : ∀ j < steps_x, min_x + j < tile_size)
    (hdd : ctx.depth_dx = ctx.alpha_grad.x * ctx.az + ctx.beta_grad.x * ctx.bz
      + ctx.gamma_grad.x * ctx.cz)
    (hwd : ctx.w_inv_dx = ctx.alpha_grad.x * ctx.w_inv_a
      + ctx.beta_grad.x * ctx.w_inv_b + ctx.gamma_grad.x * ctx.w_inv_c)
    (hud : ctx.uv_over_w_dx
      = (Vec2.smul (ctx.alpha_grad.x * ctx.w_inv_a) ctx.uv_a).add
          ((Vec2.smul (ctx.beta_grad.x * ctx.w_inv_b) ctx.uv_b).add
            (Vec2.smul (ctx.gamma_grad.x * ctx.w_inv_c) ctx.uv_c))) :
    ∀ (rows : ℕ) (r0 : ℚ × ℚ × ℚ) (y0 : ℕ) (tile : Tile) (jx jy : ℕ),
      jx < steps_x → jy < rows →
      (¬ ((0 ≤ r0.1 + jy * ctx.alpha_grad.y + jx * ctx.alpha_grad.x ∧
            0 ≤ r0.2.1 + jy * ctx.beta_grad.y + jx * ctx.beta_grad.x ∧
            0 ≤ r0.2.2 + jy * ctx.gamma_grad.y + jx * ctx.gamma_grad.x) ∧
          (((r0.1 + jy * ctx.alpha_grad.y + jx * ctx.alpha_grad.x) * ctx.az
            + (r0.2.1 + jy * ctx.beta_grad.y + jx * ctx.beta_grad.x) * ctx.bz
            + (r0.2.2 + jy * ctx.gamma_grad.y + jx * ctx.gamma_grad.x) * ctx.cz
              : ℚ) : WithTop ℚ)
            < tile.depth_buf (min_x + jx + (y0 + jy) * tile_size)) →
        (yLoop ctx tile_size min_x steps_x rows r0 y0 tile).depth_buf
            (min_x + jx + (y0 + jy) * tile_size)
          = tile.depth_buf (min_x + jx + (y0 + jy) * tile_size) ∧
        ∀ k < 4, (yLoop ctx tile_size min_x steps_x rows r0 y0 tile).frame_buf
            (4 * (min_x + jx + (y0 + jy) * tile_size) + k)
          = tile.frame_buf (4 * (min_x + jx + (y0 + jy) * tile_size) + k)) ∧
      (((0 ≤ r0.1 + jy * ctx.alpha_grad.y + jx * ctx.alpha_grad.x ∧
            0 ≤ r0.2.1 + jy * ctx.beta_grad.y + jx * ctx.beta_grad.x ∧
            0 ≤ r0.2.2 + jy * ctx.gamma_grad.y + jx * ctx.gamma_grad.x) ∧
          (((r0.1 + jy * ctx.alpha_grad.y + jx * ctx.alpha_grad.x) * ctx.az
            + (r0.2.1 + jy * ctx.beta_grad.y + jx * ctx.beta_grad.x) * ctx.bz
            + (r0.2.2 + jy * ctx.gamma_grad.y + jx * ctx.gamma_grad.x) * ctx.cz
              : ℚ) : WithTop ℚ)
            < tile.depth_buf (min_x + jx + (y0 + jy) * tile_size)) →
        (yLoop ctx tile_size min_x steps_x rows r0 y0 tile).depth_buf
            (min_x + jx + (y0 + jy) * tile_size)
          = (((r0.1 + jy * ctx.alpha_grad.y + jx * ctx.alpha_grad.x) * ctx.az
            + (r0.2.1 + jy * ctx.beta_grad.y + jx * ctx.beta_grad.x) * ctx.bz
            + (r0.2.2 + jy * ctx.gamma_grad.y + jx * ctx.gamma_grad.x) * ctx.cz
              : ℚ) : WithTop ℚ) ∧
        (ctxTexOk ctx → ∀ k < 4,
          (yLoop ctx tile_size min_x steps_x rows r0 y0 tile).frame_buf
              (4 * (min_x + jx + (y0 + jy) * tile_size) + k)
            = texelBytes ctx
                (((Vec2.smul ((r0.1 + jy * ctx.alpha_grad.y + jx * ctx.alpha_grad.x)
                      * ctx.w_inv_a) ctx.uv_a).add
                  ((Vec2.smul ((r0.2.1 + jy * ctx.beta_grad.y + jx * ctx.beta_grad.x)
                      * ctx.w_inv_b) ctx.uv_b).add
                    (Vec2.smul ((r0.2.2 + jy * ctx.gamma_grad.y + jx * ctx.gamma_grad.x)
                      * ctx.w_inv_c) ctx.uv_c))).divScalar
                  ((r0.1 + jy * ctx.alpha_grad.y + jx * ctx.alpha_grad.x) * ctx.w_inv_a
                    + (r0.2.1 + jy * ctx.beta_grad.y + jx * ctx.beta_grad.x) * ctx.w_inv_b
                    + (r0.2.2 + jy * ctx.gamma_grad.y + jx * ctx.gamma_grad.x) * ctx.w_inv_c))
                k)) := by
  intro rows
  induction rows with
  | zero => intro r0 y0 tile jx jy hjx hjy; omega
  | succ n ih =>
      intro r0 y0 tile jx jy hjx hjy
      rcases jy with _ | jy
      · -- first row: the xLoop of row y0 decides the pixel, the remaining
        -- rows never touch it
        simp only [Nat.cast_zero, zero_mul, add_zero, Nat.add_zero, zero_add]
        rw [yLoop]
        set s0 := rowInit ctx r0.1 r0.2.1 r0.2.2 (min_x + y0 * tile_size) with hs0
        have hx := xLoop_get ctx steps_x s0 tile jx hjx
        have hsa : s0.alpha_xy = r0.1 := rfl
        have hsb : s0.beta_xy = r0.2.1 := rfl
        have hsg : s0.gamma_xy = r0.2.2 := rfl
        have hsp : s0.pixel_index = min_x + y0 * tile_size := rfl
        have hsd : s0.depth + jx * ctx.depth_dx
            = (r0.1 + jx * ctx.alpha_grad.x) * ctx.az
              + (r0.2.1 + jx * ctx.beta_grad.x) * ctx.bz
              + (r0.2.2 + jx * ctx.gamma_grad.x) * ctx.cz := by
          show r0.1 * ctx.az + r0.2.1 * ctx.bz + r0.2.2 * ctx.cz
              + jx * ctx.depth_dx = _
          rw [hdd]
          ring
        have hsw : s0.w_inv + jx * ctx.w_inv_dx
            = (r0.1 + jx * ctx.alpha_grad.x) * ctx.w_inv_a
              + (r0.2.1 + jx * ctx.beta_grad.x) * ctx.w_inv_b
              + (r0.2.2 + jx * ctx.gamma_grad.x) * ctx.w_inv_c := by
          show r0.1 * ctx.w_inv_a + r0.2.1 * ctx.w_inv_b + r0.2.2 * ctx.w_inv_c
              + jx * ctx.w_inv_dx = _
          rw [hwd]
          ring
        have hsu : s0.uv_over_w.add (Vec2.smul (jx : ℚ) ctx.uv_over_w_dx)
            = (Vec2.smul ((r0.1 + jx * ctx.alpha_grad.x) * ctx.w_inv_a) ctx.uv_a).add
                ((Vec2.smul ((r0.2.1 + jx * ctx.beta_grad.x) * ctx.w_inv_b) ctx.uv_b).add
                  (Vec2.smul ((r0.2.2 + jx * ctx.gamma_grad.x) * ctx.w_inv_c) ctx.uv_c)) := by
          show ((Vec2.smul (r0.1 * ctx.w_inv_a) ctx.uv_a).add
              ((Vec2.smul (r0.2.1 * ctx.w_inv_b) ctx.uv_b).add
                (Vec2.smul (r0.2.2 * ctx.w_inv_c) ctx.uv_c))).add
              (Vec2.smul (jx : ℚ) ctx.uv_over_w_dx) = _
          rw [hud]
          exact uvOverW_shift ctx.uv_a ctx.uv_b ctx.uv_c ctx.w_inv_a ctx.w_inv_b
            ctx.w_inv_c ctx.alpha_grad.x ctx.beta_grad.x ctx.gamma_grad.x
            r0.1 r0.2.1 r0.2.2 (jx : ℚ)
        rw [hsa, hsb, hsg, hsp, hsd, hsw, hsu] at hx
        have hpix : min_x + y0 * tile_size + jx = min_x + jx + y0 * tile_size := by
          omega
        rw [hpix] at hx
        have htail := yLoop_untouched ctx tile_size min_x steps_x n
          (r0.1 + ctx.alpha_grad.y, r0.2.1 + ctx.beta_grad.y,
            r0.2.2 + ctx.gamma_grad.y) (y0 + 1)
          (xLoop ctx steps_x s0 tile) (min_x + jx + y0 * tile_size) ?_
        · constructor
          · intro hg
            obtain ⟨hd, hf⟩ := hx.1 hg
            exact ⟨htail.1.trans hd, fun k hk => (htail.2 k hk).trans (hf k hk)⟩
          · intro hg
            obtain ⟨hd, hf⟩ := hx.2 hg
            refine ⟨htail.1.trans hd, ?_⟩
            intro hok k hk
            exact (htail.2 k hk).trans (hf hok k hk)
        · intro jy2 hjy2 jx2 hjx2
          intro hcon
          have hc1 := hcols jx2 hjx2
          have hc2 := hcols jx hjx
          have h2 : (y0 + 1 + jy2) * tile_size + (min_x + jx2)
              = y0 * tile_size + (min_x + jx) := by omega
          have := rowcol_inj tile_size (min_x + jx2) (min_x + jx)
            (y0 + 1 + jy2) y0 hc1 hc2 h2
          omega
      · -- later rows: the first row does not touch the pixel; recurse
        rw [yLoop]
        set s0 := rowInit ctx r0.1 r0.2.1 r0.2.2 (min_x + y0 * tile_size) with hs0
        have hrow := xLoop_untouched ctx steps_x s0 tile
          (min_x + jx + (y0 + (jy + 1)) * tile_size) ?_
        · have hrec := ih (r0.1 + ctx.alpha_grad.y, r0.2.1 + ctx.beta_grad.y,
            r0.2.2 + ctx.gamma_grad.y) (y0 + 1) (xLoop ctx steps_x s0 tile)
            jx jy hjx (by omega)
          have hyy : y0 + 1 + jy = y0 + (jy + 1) := by omega
          rw [hyy] at hrec
          have hca : r0.1 + ctx.alpha_grad.y + jy * ctx.alpha_grad.y
              + jx * ctx.alpha_grad.x
              = r0.1 + ((jy + 1 : ℕ) : ℚ) * ctx.alpha_grad.y
                + jx * ctx.alpha_grad.x := by
            push_cast
            ring
          have hcb : r0.2.1 + ctx.beta_grad.y + jy * ctx.beta_grad.y
              + jx * ctx.beta_grad.x
              = r0.2.1 + ((jy + 1 : ℕ) : ℚ) * ctx.beta_grad.y
                + jx * ctx.beta_grad.x := by
            push_cast
            ring
          have hcg : r0.2.2 + ctx.gamma_grad.y + jy * ctx.gamma_grad.y
              + jx * ctx.gamma_grad.x
              = r0.2.2 + ((jy + 1 : ℕ) : ℚ) * ctx.gamma_grad.y
                + jx * ctx.gamma_grad.x := by
            push_cast
            ring

          simp only [hca, hcb, hcg] at hrec
          rw [hrow.1] at hrec
          constructor
          · intro hg
            obtain ⟨hd, hf⟩ := hrec.1 hg
            exact ⟨hd, fun k hk => (hf k hk).trans (hrow.2 k hk)⟩
          · intro hg
            exact hrec.2 hg
        · intro j hj
          intro hcon
          have hc1 := hcols j hj
          have hc2 := hcols jx hjx
          have hsp : s0.pixel_index = min_x + y0 * tile_size := rfl
          rw [hsp] at hcon
          have h2 : y0 * tile_size + (min_x + j)
              = (y0 + (jy + 1)) * tile_size + (min_x + jx) := by omega
          have := rowcol_inj tile_size (min_x + j) (min_x + jx)
            y0 (y0 + (jy + 1)) hc1 hc2 h2
          omega

/-- Per-pixel characterisation of `rasterBinnedTriangle` over its bounding
box: the pixel is recoloured (depth stored, texel bytes written) exactly
when `fires` holds — the inside test plus the strict depth test against the
incoming tile. -/
theorem raster_pixel (vertices : List Vec4) (uvs : List Vec2) (w_invs : List ℚ)
    (triangles : List ℕ) (texture : Option Texture)
    (tile_size x_offset y_offset : ℕ) (bt : BinnedTriangle) (tile : Tile)
    (x y : ℕ) (hmx : bt.max_x < tile_size)
    (hx1 : bt.min_x ≤ x) (hx2 : x ≤ bt.max_x)
    (hy1 : bt.min_y ≤ y) (hy2 : y ≤ bt.max_y) :
    (¬ fires (mkCtx vertices uvs w_invs triangles texture x_offset y_offset bt)
        bt tile_size tile x y →
      (rasterBinnedTriangle vertices uvs w_invs triangles texture tile_size
          x_offset y_offset bt tile).depth_buf (x + y * tile_size)
        = tile.depth_buf (x + y * tile_size) ∧
      ∀ k < 4, (rasterBinnedTriangle vertices uvs w_invs triangles texture
          tile_size x_offset y_offset bt tile).frame_buf
            (4 * (x + y * tile_size) + k)
        = tile.frame_buf (4 * (x + y * tile_size) + k)) ∧
    (fires (mkCtx vertices uvs w_invs triangles texture x_offset y_offset bt)
        bt tile_size tile x y →
      (rasterBinnedTriangle vertices uvs w_invs triangles texture tile_size
          x_offset y_offset bt tile).depth_buf (x + y * tile_size)
        = ((depthAt (mkCtx vertices uvs w_invs triangles texture x_offset
              y_offset bt) bt x y : ℚ) : WithTop ℚ) ∧
      (ctxTexOk (mkCtx vertices uvs w_invs triangles texture x_offset y_offset bt) →
        ∀ k < 4, (rasterBinnedTriangle vertices uvs w_invs triangles texture
            tile_size x_offset y_offset bt tile).frame_buf
              (4 * (x + y * tile_size) + k)
          = texelBytes (mkCtx vertices uvs w_invs triangles texture x_offset
              y_offset bt)
              (uvAt (mkCtx vertices uvs w_invs triangles texture x_offset
                y_offset bt) bt x y) k)) := by
  set ctx := mkCtx vertices uvs w_invs triangles texture x_offset y_offset bt
    with hctx
  have hdd : ctx.depth_dx = ctx.alpha_grad.x * ctx.az + ctx.beta_grad.x * ctx.bz
      + ctx.gamma_grad.x * ctx.cz := rfl
  have hwd : ctx.w_inv_dx = ctx.alpha_grad.x * ctx.w_inv_a
      + ctx.beta_grad.x * ctx.w_inv_b + ctx.gamma_grad.x * ctx.w_inv_c := rfl
  have hud : ctx.uv_over_w_dx
      = (Vec2.smul (ctx.alpha_grad.x * ctx.w_inv_a) ctx.uv_a).add
          ((Vec2.smul (ctx.beta_grad.x * ctx.w_inv_b) ctx.uv_b).add
            (Vec2.smul (ctx.gamma_grad.x * ctx.w_inv_c) ctx.uv_c)) := rfl
  have hcols : ∀ j < bt.max_x + 1 - bt.min_x, bt.min_x + j < tile_size := by
    intro j hj
    omega
  have hres : rasterBinnedTriangle vertices uvs w_invs triangles texture
      tile_size x_offset y_offset bt tile
      = yLoop ctx tile_size bt.min_x (bt.max_x + 1 - bt.min_x)
        (bt.max_y + 1 - bt.min_y) (ctx.alpha_00, ctx.beta_00, ctx.gamma_00)
        bt.min_y tile := rfl
  have hy := yLoop_get ctx tile_size bt.min_x (bt.max_x + 1 - bt.min_x) hcols
    hdd hwd hud (bt.max_y + 1 - bt.min_y)
    (ctx.alpha_00, ctx.beta_00, ctx.gamma_00) bt.min_y tile
    (x - bt.min_x) (y - bt.min_y) (by omega) (by omega)
  have hxeq : bt.min_x + (x - bt.min_x) = x := by omega
  have hyeq : bt.min_y + (y - bt.min_y) = y := by omega
  rw [hxeq, hyeq] at hy
  have hpix : x + y * tile_size = x + y * tile_size := rfl
  have hA : (ctx.alpha_00, ctx.beta_00, ctx.gamma_00).1
      + ((y - bt.min_y : ℕ) : ℚ) * ctx.alpha_grad.y
      + ((x - bt.min_x : ℕ) : ℚ) * ctx.alpha_grad.x = alphaAt ctx bt x y := by
    rw [alphaAt]
    ring
  have hB : (ctx.alpha_00, ctx.beta_00, ctx.gamma_00).2.1
      + ((y - bt.min_y : ℕ) : ℚ) * ctx.beta_grad.y
      + ((x - bt.min_x : ℕ) : ℚ) * ctx.beta_grad.x = betaAt ctx bt x y := by
    rw [betaAt]
    ring
  have hG : (ctx.alpha_00, ctx.beta_00, ctx.gamma_00).2.2
      + ((y - bt.min_y : ℕ) : ℚ) * ctx.gamma_grad.y
      + ((x - bt.min_x : ℕ) : ℚ) * ctx.gamma_grad.x = gammaAt ctx bt x y := by
    rw [gammaAt]
    ring
  rw [hA, hB, hG] at hy
  rw [hres]
  have hfir : (alphaAt ctx bt x y * ctx.az + betaAt ctx bt x y * ctx.bz
      + gammaAt ctx bt x y * ctx.cz) = depthAt ctx bt x y := rfl
  rw [hfir] at hy
  have hguard : ((0 ≤ alphaAt ctx bt x y ∧ 0 ≤ betaAt ctx bt x y ∧
      0 ≤ gammaAt ctx bt x y) ∧
      ((depthAt ctx bt x y : ℚ) : WithTop ℚ)
        < tile.depth_buf (x + y * tile_size))
      ↔ fires ctx bt tile_size tile x y := Iff.rfl
  constructor
  · intro hg
    exact hy.1 (by rw [hguard]; exact hg)
  · intro hg
    obtain ⟨hd, hf⟩ := hy.2 (by rw [hguard]; exact hg)
    refine ⟨hd, ?_⟩
    intro hok k hk
    rw [hf hok k hk]
    congr 1

/-- The depth buffer only ever decreases under the rasterizer. -/
theorem xStep_depth_le (ctx : RasterCtx) (tile : Tile) (s : XState) (p : ℕ) :
    (xStep ctx tile s).depth_buf p ≤ tile.depth_buf p := by
  rw [xStep]
  by_cases hg : (0 ≤ s.alpha_xy ∧ 0 ≤ s.beta_xy ∧ 0 ≤ s.gamma_xy) ∧
      (s.depth : WithTop ℚ) < tile.depth_buf s.pixel_index
  · rw [if_pos hg]
    show updDepth tile.depth_buf s.pixel_index (s.depth : WithTop ℚ) p
      ≤ tile.depth_buf p
    rw [updDepth_apply]
    by_cases hp : p = s.pixel_index
    · rw [if_pos hp, hp]
      exact le_of_lt hg.2
    · rw [if_neg hp]
  · rw [if_neg hg]

theorem xLoop_depth_le (ctx : RasterCtx) :
    ∀ (n : ℕ) (s : XState) (tile : Tile) (p : ℕ),
      (xLoop ctx n s tile).depth_buf p ≤ tile.depth_buf p := by
  intro n
  induction n with
  | zero => intro s tile p; exact le_refl _
  | succ n ih =>
      intro s tile p
      rw [xLoop]
      exact le_trans (ih (xAdvance ctx s) (xStep ctx tile s) p)
        (xStep_depth_le ctx tile s p)

theorem yLoop_depth_le (ctx : RasterCtx) (tile_size min_x steps_x : ℕ) :
    ∀ (rows : ℕ) (r0 : ℚ × ℚ × ℚ) (y0 : ℕ) (tile : Tile) (p : ℕ),
      (yLoop ctx tile_size min_x steps_x rows r0 y0 tile).depth_buf p
        ≤ tile.depth_buf p := by
  intro rows
  induction rows with
  | zero => intro r0 y0 tile p; exact le_refl _
  | succ n ih =>
      intro r0 y0 tile p
      rw [yLoop]
      exact le_trans (ih _ _ _ p) (xLoop_depth_le ctx steps_x _ tile p)

theorem runCmds_depth_le (tile_size x_offset y_offset : ℕ) :
    ∀ (cmds : List DrawCmd) (tile : Tile) (p : ℕ),
      (runCmds tile_size x_offset y_offset cmds tile).depth_buf p
        ≤ tile.depth_buf p := by
  intro cmds
  induction cmds with
  | nil => intro tile p; exact le_refl _
  | cons c rest ih =>
      intro tile p
      show (runCmds tile_size x_offset y_offset rest
        (runCmd tile_size x_offset y_offset c tile)).depth_buf p ≤ _
      refine le_trans (ih _ p) ?_
      show (rasterBinnedTriangle c.vertices c.uvs c.w_invs c.triangles
        c.texture tile_size x_offset y_offset c.bt tile).depth_buf p
        ≤ tile.depth_buf p
      exact yLoop_depth_le _ _ _ _ _ _ _ tile p

/-- C1 (amended): every pixel the rasterizer writes for a triangle with a
(well-formed) texture receives the sampled texel bytes unchanged — no
shading scalar is applied anywhere (`Shader::shade` is never invoked by the
rasterizer, which receives neither shader nor lights) — with `out.a = 255`
exactly when the texture has three channels (a four-channel texel's own
alpha byte is copied); the pixel's depth entry is set to the interpolated
depth. -/
theorem raster_writes_texel_unshaded (vertices : List Vec4) (uvs : List Vec2)
    (w_invs : List ℚ) (triangles : List ℕ) (texture : Option Texture)
    (tile_size x_offset y_offset : ℕ) (bt : BinnedTriangle) (tile : Tile)
    (x y : ℕ) (t : Texture) (htex : texture = some t)
    (hval : t.pixels.length = t.width * t.height * t.nb_chanels)
    (hw : 0 < t.width) (hh : 0 < t.height)
    (hmx : bt.max_x < tile_size)
    (hx1 : bt.min_x ≤ x) (hx2 : x ≤ bt.max_x)
    (hy1 : bt.min_y ≤ y) (hy2 : y ≤ bt.max_y)
    (hfire : fires (mkCtx vertices uvs w_invs triangles texture x_offset
      y_offset bt) bt tile_size tile x y) :
    (∀ k < t.nb_chanels,
      (rasterBinnedTriangle vertices uvs w_invs triangles texture tile_size
          x_offset y_offset bt tile).frame_buf (4 * (x + y * tile_size) + k)
        = (t.from_uv
            (uvAt (mkCtx vertices uvs w_invs triangles texture x_offset
              y_offset bt) bt x y).x
            (uvAt (mkCtx vertices uvs w_invs triangles texture x_offset
              y_offset bt) bt x y).y).getD k 0) ∧
    (t.nb_chanels ≠ 4 →
      (rasterBinnedTriangle vertices uvs w_invs triangles texture tile_size
          x_offset y_offset bt tile).frame_buf (4 * (x + y * tile_size) + 3)
        = 255) ∧
    (rasterBinnedTriangle vertices uvs w_invs triangles texture tile_size
        x_offset y_offset bt tile).depth_buf (x + y * tile_size)
      = ((depthAt (mkCtx vertices uvs w_invs triangles texture x_offset
          y_offset bt) bt x y : ℚ) : WithTop ℚ) := by
  subst htex
  have hctex : (mkCtx vertices uvs w_invs triangles (some t) x_offset
      y_offset bt).texture = some t := rfl
  have hcnb : (mkCtx vertices uvs w_invs triangles (some t) x_offset
      y_offset bt).nb_channels = t.nb_chanels := rfl
  have hok : ctxTexOk (mkCtx vertices uvs w_invs triangles (some t) x_offset
      y_offset bt) := by
    intro t2 ht2
    rw [hctex] at ht2
    obtain rfl : t = t2 := by injection ht2
    exact ⟨hcnb, hval, hw, hh⟩
  have hnb4 : t.nb_chanels ≤ 4 := by
    rcases hfmt : t.format with _ | _ <;> simp [Texture.nb_chanels, hfmt]
  obtain ⟨hd, hf⟩ := (raster_pixel vertices uvs w_invs triangles (some t)
    tile_size x_offset y_offset bt tile x y hmx hx1 hx2 hy1 hy2).2 hfire
  refine ⟨?_, ?_, hd⟩
  · intro k hk
    rw [hf hok k (by omega)]
    rw [texelBytes, hctex]
    simp only [hcnb]
    rw [if_pos hk]
  · intro hnb
    rw [hf hok 3 (by omega)]
    rw [texelBytes, hctex]
    simp only [hcnb]
    rw [if_neg (by omega)]

/-- C5: across a sequence of triangles rasterized into the same tile, a
pixel colored by an earlier triangle is re-colored by a later one only if
the later triangle's interpolated depth at that pixel is strictly smaller
than the earlier one's; every write updates the pixel's depth entry to the
written triangle's interpolated depth. -/
theorem depth_test_monotone (tile_size x_offset y_offset : ℕ)
    (cmd1 cmd2 : DrawCmd) (mid : List DrawCmd) (tile : Tile) (x y : ℕ)
    (hmx1 : cmd1.bt.max_x < tile_size)
    (hx11 : cmd1.bt.min_x ≤ x) (hx12 : x ≤ cmd1.bt.max_x)
    (hy11 : cmd1.bt.min_y ≤ y) (hy12 : y ≤ cmd1.bt.max_y)
    (hmx2 : cmd2.bt.max_x < tile_size)
    (hx21 : cmd2.bt.min_x ≤ x) (hx22 : x ≤ cmd2.bt.max_x)
    (hy21 : cmd2.bt.min_y ≤ y) (hy22 : y ≤ cmd2.bt.max_y)
    (hfire1 : fires (cmd1.ctx x_offset y_offset) cmd1.bt tile_size tile x y)
    (hfire2 : fires (cmd2.ctx x_offset y_offset) cmd2.bt tile_size
      (runCmds tile_size x_offset y_offset mid
        (runCmd tile_size x_offset y_offset cmd1 tile)) x y) :
    depthAt (cmd2.ctx x_offset y_offset) cmd2.bt x y
      < depthAt (cmd1.ctx x_offset y_offset) cmd1.bt x y ∧
    (runCmd tile_size x_offset y_offset cmd2
        (runCmds tile_size x_offset y_offset mid
          (runCmd tile_size x_offset y_offset cmd1 tile))).depth_buf
        (x + y * tile_size)
      = ((depthAt (cmd2.ctx x_offset y_offset) cmd2.bt x y : ℚ) : WithTop ℚ) := by
  have h1 := (raster_pixel cmd1.vertices cmd1.uvs cmd1.w_invs cmd1.triangles
    cmd1.texture tile_size x_offset y_offset cmd1.bt tile x y hmx1
    hx11 hx12 hy11 hy12).2 hfire1
  have hd1 : (runCmd tile_size x_offset y_offset cmd1 tile).depth_buf
      (x + y * tile_size)
      = ((depthAt (cmd1.ctx x_offset y_offset) cmd1.bt x y : ℚ) : WithTop ℚ) :=
    h1.1
  have hmid := runCmds_depth_le tile_size x_offset y_offset mid
    (runCmd tile_size x_offset y_offset cmd1 tile) (x + y * tile_size)
  rw [hd1] at hmid
  have hlt : ((depthAt (cmd2.ctx x_offset y_offset) cmd2.bt x y : ℚ) : WithTop ℚ)
      < ((depthAt (cmd1.ctx x_offset y_offset) cmd1.bt x y : ℚ) : WithTop ℚ) :=
    lt_of_lt_of_le hfire2.2 hmid
  have h2 := (raster_pixel cmd2.vertices cmd2.uvs cmd2.w_invs cmd2.triangles
    cmd2.texture tile_size x_offset y_offset cmd2.bt
    (runCmds tile_size x_offset y_offset mid
      (runCmd tile_size x_offset y_offset cmd1 tile)) x y hmx2
    hx21 hx22 hy21 hy22).2 hfire2
  exact ⟨WithTop.coe_lt_coe.mp hlt, h2.1⟩

/-! ### C2 and C7: frustum clipping -/

/-- Position of a clip plane in the source's `hyperplanes` sequence. -/
def planeIdx : ClipPlane → ℕ
  | .XP => 0
  | .XN => 1
  | .YP => 2
  | .YN => 3
  | .ZP => 4
  | .ZN => 5

/-- The value of vertex `i` in a clip state. -/
def vAt (st : ClipState) (i : ℕ) : Vec4 := st.vertices.getD i v4zero

/-- Every cached intersection vertex is in bounds and within tolerance of
every plane up to and including the plane it was created on. -/
def CacheOk (st : ClipState) : Prop :=
  ∀ e ∈ st.cache, e.2 < st.vertices.length ∧
    ∀ pl ∈ hyperplanes.take (planeIdx e.1.2.2 + 1), pl.2.dot (vAt st e.2) ≤ parTol

/-- Every vertex of the working polygon is in bounds and within tolerance
of every already-processed plane. -/
def ShapeOk (st : ClipState) (done : List (ClipPlane × Vec4))
    (shape : List ℕ) : Prop :=
  ∀ i ∈ shape, i < st.vertices.length ∧
    ∀ pl ∈ done, pl.2.dot (vAt st i) ≤ parTol

/-- The vertex array only grows. -/
def StExt (st st2 : ClipState) : Prop :=
  ∃ ext, st2.vertices = st.vertices ++ ext

theorem stExt_refl (st : ClipState) : StExt st st := ⟨[], (List.append_nil _).symm⟩

theorem stExt_trans {st1 st2 st3 : ClipState} (h1 : StExt st1 st2)
    (h2 : StExt st2 st3) : StExt st1 st3 := by
  obtain ⟨e1, he1⟩ := h1
  obtain ⟨e2, he2⟩ := h2
  exact ⟨e1 ++ e2, by rw [he2, he1, List.append_assoc]⟩

theorem stExt_len {st st2 : ClipState} (h : StExt st st2) :
    st.vertices.length ≤ st2.vertices.length := by
  obtain ⟨e, he⟩ := h
  rw [he, List.length_append]
  omega

theorem vAt_ext {st st2 : ClipState} (h : StExt st st2) (i : ℕ)
    (hi : i < st.vertices.length) : vAt st2 i = vAt st i := by
  obtain ⟨e, he⟩ := h
  rw [vAt, vAt, he]
  rw [List.getD_eq_getElem?_getD, List.getD_eq_getElem?_getD,
    List.getElem?_append_left hi]

theorem getD_append_length (l : List Vec4) (x d : Vec4) :
    (l ++ [x]).getD l.length d = x := by
  rw [List.getD_eq_getElem?_getD, List.getElem?_append_right (le_refl _)]
  simp

theorem sub_dot4 (a b n : Vec4) : (a.sub b).dot n = a.dot n - b.dot n := by
  obtain ⟨ax, ay, az, aw⟩ := a
  obtain ⟨bx, by2, bz, bw⟩ := b
  obtain ⟨nx, ny, nz, nw⟩ := n
  simp only [Vec4.sub, Vec4.dot]
  ring

theorem lerp_dot4 (a b n : Vec4) (t : ℚ) :
    n.dot (a.lerp b t) = n.dot a + t * (n.dot b - n.dot a) := by
  obtain ⟨ax, ay, az, aw⟩ := a
  obtain ⟨bx, by2, bz, bw⟩ := b
  obtain ⟨nx, ny, nz, nw⟩ := n
  simp only [Vec4.lerp, Vec4.add, Vec4.sub, Vec4.smul, Vec4.dot]
  ring

theorem dot_comm4 (a b : Vec4) : a.dot b = b.dot a := by
  obtain ⟨ax, ay, az, aw⟩ := a
  obtain ⟨bx, by2, bz, bw⟩ := b
  simp only [Vec4.dot]
  ring

theorem parTol_pos : (0 : ℚ) < parTol := by norm_num [parTol]

/-- The convex combination of two in-tolerance points is in tolerance. -/
theorem lerp_tol (a b n : Vec4) (t : ℚ) (ht0 : 0 ≤ t) (ht1 : t ≤ 1)
    (ha : n.dot a ≤ parTol) (hb : n.dot b ≤ parTol) :
    n.dot (a.lerp b t) ≤ parTol := by
  rw [lerp_dot4]
  nlinarith

theorem cacheLookup_some (cache : List ((ℕ × ℕ × ClipPlane) × ℕ))
    (k : ℕ × ℕ × ClipPlane) (ci : ℕ) (h : cacheLookup cache k = some ci) :
    (k, ci) ∈ cache := by
  rw [cacheLookup] at h
  rcases hf : cache.find? (fun e => decide (e.1 = k)) with _ | e
  · rw [hf] at h
    simp at h
  · rw [hf] at h
    have hp := List.find?_some hf
    have hm := List.mem_of_find?_eq_some hf
    have hk : e.1 = k := by simpa using hp
    have hv : e.2 = ci := by simpa using h
    have he : e = (k, ci) := by
      rw [← hk, ← hv]
    rw [← he]
    exact hm

theorem cacheLookup_none (cache : List ((ℕ × ℕ × ClipPlane) × ℕ))
    (k : ℕ × ℕ × ClipPlane) (h : cacheLookup cache k = none) :
    ∀ e ∈ cache, e.1 ≠ k := by
  rw [cacheLookup] at h
  rcases hf : cache.find? (fun e => decide (e.1 = k)) with _ | e
  · intro e he
    have := List.find?_eq_none.mp hf e he
    simpa using this
  · rw [hf] at h
    simp at h

/-- Appending a fresh intersection vertex preserves the cache invariant and
extends the state; the new index holds the new vertex. -/
theorem miss_ok (pt : ClipPlane) (st : ClipState) (k : ℕ × ℕ × ClipPlane)
    (hk : k.2.2 = pt) (c : Vec4) (uv : Vec2) (hc : CacheOk st)
    (hcbnd : ∀ pl ∈ hyperplanes.take (planeIdx pt + 1), pl.2.dot c ≤ parTol) :
    CacheOk ⟨st.vertices ++ [c], st.uvs ++ [uv],
      st.cache ++ [(k, st.vertices.length)]⟩ ∧
    StExt st ⟨st.vertices ++ [c], st.uvs ++ [uv],
      st.cache ++ [(k, st.vertices.length)]⟩ ∧
    vAt ⟨st.vertices ++ [c], st.uvs ++ [uv],
      st.cache ++ [(k, st.vertices.length)]⟩ st.vertices.length = c := by
  have hstep : StExt st ⟨st.vertices ++ [c], st.uvs ++ [uv],
      st.cache ++ [(k, st.vertices.length)]⟩ := ⟨[c], rfl⟩
  have hvc : vAt ⟨st.vertices ++ [c], st.uvs ++ [uv],
      st.cache ++ [(k, st.vertices.length)]⟩ st.vertices.length = c :=
    getD_append_length st.vertices c v4zero
  refine ⟨?_, hstep, hvc⟩
  intro e he
  rcases List.mem_append.mp he with he | he
  · obtain ⟨helt, hebnd⟩ := hc e he
    refine ⟨?_, ?_⟩
    · show e.2 < (st.vertices ++ [c]).length
      rw [List.length_append]
      simp only [List.length_cons, List.length_nil]
      omega
    · intro pl hpl
      rw [vAt_ext hstep e.2 helt]
      exact hebnd pl hpl
  · rw [List.mem_singleton] at he
    subst he
    refine ⟨?_, ?_⟩
    · show st.vertices.length < (st.vertices ++ [c]).length
      rw [List.length_append]
      simp only [List.length_cons, List.length_nil]
      omega
    · intro pl hpl
      dsimp only at hpl ⊢
      rw [hk] at hpl
      rw [hvc]
      exact hcbnd pl hpl

/-- One Sutherland-Hodgman edge step preserves the clipping invariants:
the cache invariant, vertex-array extension, and the in-tolerance property
(through the current plane) of the accumulated output polygon. -/
theorem clipEdge_ok (pt : ClipPlane) (pn : Vec4)
    (hsplit : hyperplanes.take (planeIdx pt + 1)
      = hyperplanes.take (planeIdx pt) ++ [(pt, pn)])
    (st0 : ClipState) (shape : List ℕ)
    (hs : ShapeOk st0 (hyperplanes.take (planeIdx pt)) shape)
    (ns : List ℕ) (st : ClipState) (ai bi : ℕ)
    (hai : ai ∈ shape) (hbi : bi ∈ shape)
    (hc : CacheOk st) (hext : StExt st0 st)
    (hns : ShapeOk st (hyperplanes.take (planeIdx pt + 1)) ns) :
    CacheOk (clipEdge pt pn (ns, st) (ai, bi)).2 ∧
    StExt st0 (clipEdge pt pn (ns, st) (ai, bi)).2 ∧
    StExt st (clipEdge pt pn (ns, st) (ai, bi)).2 ∧
    ShapeOk (clipEdge pt pn (ns, st) (ai, bi)).2
      (hyperplanes.take (planeIdx pt + 1)) (clipEdge pt pn (ns, st) (ai, bi)).1 := by
  obtain ⟨hailt0, habnd0⟩ := hs ai hai
  obtain ⟨hbilt0, hbbnd0⟩ := hs bi hbi
  have hailt : ai < st.vertices.length := lt_of_lt_of_le hailt0 (stExt_len hext)
  have hbilt : bi < st.vertices.length := lt_of_lt_of_le hbilt0 (stExt_len hext)
  have haeq : vAt st ai = vAt st0 ai := vAt_ext hext ai hailt0
  have hbeq : vAt st bi = vAt st0 bi := vAt_ext hext bi hbilt0
  have habnd : ∀ pl ∈ hyperplanes.take (planeIdx pt),
      pl.2.dot (vAt st ai) ≤ parTol := by
    intro pl hpl
    rw [haeq]
    exact habnd0 pl hpl
  have hbbnd : ∀ pl ∈ hyperplanes.take (planeIdx pt),
      pl.2.dot (vAt st bi) ≤ parTol := by
    intro pl hpl
    rw [hbeq]
    exact hbbnd0 pl hpl
  simp only [clipEdge]
  set A := st.vertices.getD ai v4zero with hA
  set B := st.vertices.getD bi v4zero with hB
  have hthrough_b : pn.dot B ≤ parTol →
      ∀ pl ∈ hyperplanes.take (planeIdx pt + 1), pl.2.dot (vAt st bi) ≤ parTol := by
    intro hdb pl hpl
    rw [hsplit] at hpl
    rcases List.mem_append.mp hpl with hpl | hpl
    · exact hbbnd pl hpl
    · rw [List.mem_singleton] at hpl
      subst hpl
      exact hdb
  have hthrough_a : pn.dot A ≤ parTol →
      ∀ pl ∈ hyperplanes.take (planeIdx pt + 1), pl.2.dot (vAt st ai) ≤ parTol := by
    intro hda pl hpl
    rw [hsplit] at hpl
    rcases List.mem_append.mp hpl with hpl | hpl
    · exact habnd pl hpl
    · rw [List.mem_singleton] at hpl
      subst hpl
      exact hda
  have hd : (B.sub A).dot pn = pn.dot B - pn.dot A := by
    rw [sub_dot4, dot_comm4 B pn, dot_comm4 A pn]
  by_cases hstrad : (pn.dot B ≤ 0 ∧ ¬pn.dot A ≤ 0) ∨ (pn.dot A ≤ 0 ∧ ¬pn.dot B ≤ 0)
  · rw [if_pos hstrad]
    rcases hint : lin_plane_intersect4 v4zero pn A (B.sub A) with _ | t
    · -- parallel fallback
      rw [lin_plane_intersect4] at hint
      by_cases habs : |(B.sub A).dot pn| < parTol
      · simp only [if_pos habs] at hint
        by_cases hbin : pn.dot B ≤ 0
        · rw [if_neg (by simpa using hbin)]
          refine ⟨hc, hext, stExt_refl st, ?_⟩
          intro i hi
          rcases List.mem_append.mp hi with hi | hi
          · exact hns i hi
          · rcases List.mem_cons.mp hi with rfl | hi
            · refine ⟨hailt, hthrough_a ?_⟩
              rcases hstrad with ⟨h1, h2⟩ | ⟨h1, h2⟩
              · rw [hd, abs_lt] at habs
                linarith
              · exact le_trans h1 (le_of_lt parTol_pos)
            · rcases List.mem_singleton.mp hi with rfl
              exact ⟨hbilt, hthrough_b (le_trans hbin (le_of_lt parTol_pos))⟩
        · rw [if_pos (by simpa using hbin)]
          refine ⟨hc, hext, stExt_refl st, ?_⟩
          intro i hi
          rcases List.mem_append.mp hi with hi | hi
          · exact hns i hi
          · rcases List.mem_singleton.mp hi with rfl
            refine ⟨hbilt, hthrough_b ?_⟩
            rw [hd, abs_lt] at habs
            rcases hstrad with ⟨h1, h2⟩ | ⟨h1, h2⟩
            · exact absurd h1 hbin
            · linarith
      · simp only [if_neg habs] at hint
        exact Option.noConfusion hint
    · -- genuine intersection
      rw [lin_plane_intersect4] at hint
      by_cases habs : |(B.sub A).dot pn| < parTol
      · simp only [if_pos habs] at hint
        exact Option.noConfusion hint
      simp only [if_neg habs, Option.some.injEq] at hint
      have ht : t = (v4zero.sub A).dot pn / (B.sub A).dot pn := hint.symm
      have hdenne : (B.sub A).dot pn ≠ 0 := by
        intro h
        rw [h, abs_zero] at habs
        exact habs parTol_pos
      have hnum : (v4zero.sub A).dot pn = -(pn.dot A) := by
        rw [sub_dot4, dot_comm4 A pn]
        simp [v4zero, Vec4.dot]
      have ht01 : 0 ≤ t ∧ t ≤ 1 := by
        rcases hstrad with ⟨h1, h2⟩ | ⟨h1, h2⟩
        · push_neg at h2
          have ht2 : t = pn.dot A / (pn.dot A - pn.dot B) := by
            rw [ht, hnum, hd]
            rw [div_eq_div_iff (by rw [← hd]; exact hdenne) (by linarith)]
            ring
          constructor
          · rw [ht2]
            exact div_nonneg (by linarith) (by linarith)
          · rw [ht2, div_le_one (by linarith)]
            linarith
        · push_neg at h2
          have hdpos : (0 : ℚ) < (B.sub A).dot pn := by rw [hd]; linarith
          constructor
          · rw [ht, hnum]
            exact div_nonneg (by linarith) (le_of_lt hdpos)
          · rw [ht, hnum, div_le_one hdpos, hd]
            linarith
      have hzero : pn.dot (A.lerp B t) = 0 := by
        rw [lerp_dot4, ht, hnum, ← hd, div_mul_cancel₀ _ hdenne]
        ring
      have hconv : ∀ pl ∈ hyperplanes.take (planeIdx pt + 1),
          pl.2.dot (A.lerp B t) ≤ parTol := by
        intro pl hpl
        rw [hsplit] at hpl
        rcases List.mem_append.mp hpl with hpl | hpl
        · exact lerp_tol A B pl.2 t ht01.1 ht01.2 (habnd pl hpl) (hbbnd pl hpl)
        · rw [List.mem_singleton] at hpl
          subst hpl
          rw [hzero]
          exact le_of_lt parTol_pos
      rcases hlook : cacheLookup st.cache
          (if ai > bi then bi else ai, if ai > bi then ai else bi, pt)
        with _ | ci
      · -- cache miss: append the intersection vertex
        simp only [hlook]
        have hci : (st.vertices ++ [A.lerp B t]).length - 1 = st.vertices.length := by
          rw [List.length_append]
          simp
        simp only [hci]
        obtain ⟨hc2, hstep, hvc⟩ := miss_ok pt st
          (if ai > bi then bi else ai, if ai > bi then ai else bi, pt) rfl
          (A.lerp B t)
          ((st.uvs.getD ai v2zero).lerp (st.uvs.getD bi v2zero) t) hc hconv
        have hshape2 : ShapeOk ⟨st.vertices ++ [A.lerp B t],
            st.uvs ++ [(st.uvs.getD ai v2zero).lerp (st.uvs.getD bi v2zero) t],
            st.cache ++ [((if ai > bi then bi else ai, if ai > bi then ai else bi, pt),
              st.vertices.length)]⟩
            (hyperplanes.take (planeIdx pt + 1)) (ns ++ [st.vertices.length]) := by
          intro i hi
          rcases List.mem_append.mp hi with hi | hi
          · obtain ⟨hilt, hibnd⟩ := hns i hi
            refine ⟨?_, ?_⟩
            · show i < (st.vertices ++ [A.lerp B t]).length
              rw [List.length_append]
              omega
            · intro pl hpl
              rw [vAt_ext hstep i hilt]
              exact hibnd pl hpl
          · rcases List.mem_singleton.mp hi with rfl
            refine ⟨?_, ?_⟩
            · show st.vertices.length < (st.vertices ++ [A.lerp B t]).length
              rw [List.length_append]
              simp
            · intro pl hpl
              rw [hvc]
              exact hconv pl hpl
        by_cases hbin : pn.dot B ≤ 0
        · rw [if_pos hbin]
          refine ⟨hc2, stExt_trans hext hstep, hstep, ?_⟩
          intro i hi
          rcases List.mem_append.mp hi with hi | hi
          · exact hshape2 i hi
          · rcases List.mem_singleton.mp hi with rfl
            refine ⟨?_, ?_⟩
            · show i < (st.vertices ++ [A.lerp B t]).length
              rw [List.length_append]
              omega
            · intro pl hpl
              rw [vAt_ext hstep i hbilt]
              exact hthrough_b (le_trans hbin (le_of_lt parTol_pos)) pl hpl
        · rw [if_neg hbin]
          exact ⟨hc2, stExt_trans hext hstep, hstep, hshape2⟩
      · -- cache hit: reuse the cached intersection index
        simp only [hlook]
        have hmem := cacheLookup_some st.cache _ ci hlook
        obtain ⟨hcilt, hcibnd⟩ := hc _ hmem
        have hcibnd2 : ∀ pl ∈ hyperplanes.take (planeIdx pt + 1),
            pl.2.dot (vAt st ci) ≤ parTol := hcibnd
        by_cases hbin : pn.dot B ≤ 0
        · rw [if_pos hbin]
          refine ⟨hc, hext, stExt_refl st, ?_⟩
          intro i hi
          rcases List.mem_append.mp hi with hi | hi
          · rcases List.mem_append.mp hi with hi | hi
            · exact hns i hi
            · rcases List.mem_singleton.mp hi with rfl
              exact ⟨hcilt, hcibnd2⟩
          · rcases List.mem_singleton.mp hi with rfl
            exact ⟨hbilt, hthrough_b (le_trans hbin (le_of_lt parTol_pos))⟩
        · rw [if_neg hbin]
          refine ⟨hc, hext, stExt_refl st, ?_⟩
          intro i hi
          rcases List.mem_append.mp hi with hi | hi
          · exact hns i hi
          · rcases List.mem_singleton.mp hi with rfl
            exact ⟨hcilt, hcibnd2⟩
  · rw [if_neg hstrad]
    by_cases hbin : pn.dot B ≤ 0
    · rw [if_pos hbin]
      refine ⟨hc, hext, stExt_refl st, ?_⟩
      intro i hi
      rcases List.mem_append.mp hi with hi | hi
      · exact hns i hi
      · rcases List.mem_singleton.mp hi with rfl
        exact ⟨hbilt, hthrough_b (le_trans hbin (le_of_lt parTol_pos))⟩
    · rw [if_neg hbin]
      exact ⟨hc, hext, stExt_refl st, hns⟩

theorem clipFold_ok (pt : ClipPlane) (pn : Vec4)
    (hsplit : hyperplanes.take (planeIdx pt + 1)
      = hyperplanes.take (planeIdx pt) ++ [(pt, pn)])
    (st0 : ClipState) (shape : List ℕ)
    (hs : ShapeOk st0 (hyperplanes.take (planeIdx pt)) shape)
    (l : List (ℕ × ℕ)) :
    (∀ p ∈ l, p.1 ∈ shape ∧ p.2 ∈ shape) →
    ∀ ns st, CacheOk st → StExt st0 st →
      ShapeOk st (hyperplanes.take (planeIdx pt + 1)) ns →
    CacheOk (l.foldl (clipEdge pt pn) (ns, st)).2 ∧
    StExt st0 (l.foldl (clipEdge pt pn) (ns, st)).2 ∧
    ShapeOk (l.foldl (clipEdge pt pn) (ns, st)).2
      (hyperplanes.take (planeIdx pt + 1)) (l.foldl (clipEdge pt pn) (ns, st)).1 := by
  induction l with
  | nil =>
    intro _ ns st hc hext hns
    exact ⟨hc, hext, hns⟩
  | cons p l ih =>
    intro hl ns st hc hext hns
    obtain ⟨hp1, hp2⟩ := hl p (List.mem_cons_self p l)
    obtain ⟨hc2, hext02, _, hns2⟩ :=
      clipEdge_ok pt pn hsplit st0 shape hs ns st p.1 p.2 hp1 hp2 hc hext hns
    rw [List.foldl_cons]
    exact ih (fun q hq => hl q (List.mem_cons_of_mem p hq))
      (clipEdge pt pn (ns, st) p).1 (clipEdge pt pn (ns, st) p).2
      hc2 hext02 hns2

theorem clipShapePlane_ok (pt : ClipPlane) (pn : Vec4)
    (hsplit : hyperplanes.take (planeIdx pt + 1)
      = hyperplanes.take (planeIdx pt) ++ [(pt, pn)])
    (st : ClipState) (shape : List ℕ)
    (hc : CacheOk st)
    (hs : ShapeOk st (hyperplanes.take (planeIdx pt)) shape) :
    CacheOk (clipShapePlane pt pn st shape).2 ∧
    StExt st (clipShapePlane pt pn st shape).2 ∧
    ShapeOk (clipShapePlane pt pn st shape).2
      (hyperplanes.take (planeIdx pt + 1)) (clipShapePlane pt pn st shape).1 := by
  have hl : ∀ p ∈ shape.zip (shape.rotate 1), p.1 ∈ shape ∧ p.2 ∈ shape := by
    intro p hp
    obtain ⟨a, b⟩ := p
    obtain ⟨h1, h2⟩ := List.mem_zip hp
    exact ⟨h1, (List.mem_rotate).mp h2⟩
  have hns0 : ShapeOk st (hyperplanes.take (planeIdx pt + 1)) [] := by
    intro i hi
    cases hi
  exact clipFold_ok pt pn hsplit st shape hs _ hl [] st hc (stExt_refl st) hns0

theorem clipShapePlanes_ok (st : ClipState) (shape : List ℕ)
    (hc : CacheOk st) (hs : ∀ i ∈ shape, i < st.vertices.length) :
    CacheOk (clipShapePlanes st shape).2 ∧
    StExt st (clipShapePlanes st shape).2 ∧
    ShapeOk (clipShapePlanes st shape).2 hyperplanes (clipShapePlanes st shape).1 := by
  have hs0 : ShapeOk st (hyperplanes.take (planeIdx ClipPlane.XP)) shape := by
    intro i hi
    refine ⟨hs i hi, ?_⟩
    intro pl hpl
    simp [hyperplanes, planeIdx] at hpl
  obtain ⟨hc1, he1, hp1⟩ :=
    clipShapePlane_ok ClipPlane.XP ⟨1, 0, 0, -1⟩ rfl st shape hc hs0
  obtain ⟨hc2, he2, hp2⟩ :=
    clipShapePlane_ok ClipPlane.XN ⟨-1, 0, 0, -1⟩ rfl _ _ hc1 hp1
  obtain ⟨hc3, he3, hp3⟩ :=
    clipShapePlane_ok ClipPlane.YP ⟨0, 1, 0, -1⟩ rfl _ _ hc2 hp2
  obtain ⟨hc4, he4, hp4⟩ :=
    clipShapePlane_ok ClipPlane.YN ⟨0, -1, 0, -1⟩ rfl _ _ hc3 hp3
  obtain ⟨hc5, he5, hp5⟩ :=
    clipShapePlane_ok ClipPlane.ZP ⟨0, 0, 1, -1⟩ rfl _ _ hc4 hp4
  obtain ⟨hc6, he6, hp6⟩ :=
    clipShapePlane_ok ClipPlane.ZN ⟨0, 0, -1, -1⟩ rfl _ _ hc5 hp5
  simp only [clipShapePlanes, hyperplanes, List.foldl_cons, List.foldl_nil]
  exact ⟨hc6,
    stExt_trans (stExt_trans (stExt_trans (stExt_trans (stExt_trans he1 he2)
      he3) he4) he5) he6, hp6⟩

theorem getD_mem_nat (l : List ℕ) (k : ℕ) (hk : k < l.length) : l.getD k 0 ∈ l := by
  rw [List.getD_eq_getElem?_getD, List.getElem?_eq_getElem hk]
  exact List.getElem_mem hk

theorem fanTriangulate_sub (shape : List ℕ) :
    ∀ i ∈ fanTriangulate shape, i ∈ shape := by
  rw [fanTriangulate]
  by_cases h3 : 3 ≤ shape.length
  · rw [if_pos h3]
    have hfold : ∀ (l : List ℕ) (acc : List ℕ),
        (∀ i ∈ acc, i ∈ shape) → (∀ v ∈ l, v + 2 < shape.length) →
        ∀ i ∈ l.foldl
          (fun ts v => ts ++ [shape.getD 0 0, shape.getD (v + 1) 0,
            shape.getD (v + 2) 0]) acc, i ∈ shape := by
      intro l
      induction l with
      | nil =>
        intro acc hacc _ i hi
        exact hacc i hi
      | cons v l ih =>
        intro acc hacc hbnd i hi
        rw [List.foldl_cons] at hi
        refine ih _ ?_ (fun w hw => hbnd w (List.mem_cons_of_mem v hw)) i hi
        intro j hj
        rcases List.mem_append.mp hj with hj | hj
        · exact hacc j hj
        · have hv2 : v + 2 < shape.length := hbnd v (List.mem_cons_self v l)
          rcases List.mem_cons.mp hj with rfl | hj
          · exact getD_mem_nat shape 0 (by omega)
          rcases List.mem_cons.mp hj with rfl | hj
          · exact getD_mem_nat shape (v + 1) (by omega)
          rcases List.mem_cons.mp hj with rfl | hj
          · exact getD_mem_nat shape (v + 2) hv2
          cases hj
    refine hfold _ [] (fun i hi => absurd hi (List.not_mem_nil i)) ?_
    intro v hv
    have := List.mem_range.mp hv
    omega
  · rw [if_neg h3]
    intro i hi
    cases hi

theorem triChunks_mem : ∀ (l : List ℕ) (t : ℕ × ℕ × ℕ), t ∈ triChunks l →
    t.1 ∈ l ∧ t.2.1 ∈ l ∧ t.2.2 ∈ l
  | [], t, ht => by
    rw [show triChunks [] = [] from rfl] at ht
    cases ht
  | [a], t, ht => by
    rw [show triChunks [a] = [] from rfl] at ht
    cases ht
  | [a, b], t, ht => by
    rw [show triChunks [a, b] = [] from rfl] at ht
    cases ht
  | a :: b :: c :: rest, t, ht => by
    rw [show triChunks (a :: b :: c :: rest) = (a, b, c) :: triChunks rest from rfl]
      at ht
    rcases List.mem_cons.mp ht with rfl | ht
    · refine ⟨List.mem_cons_self _ _, ?_, ?_⟩
      · exact List.mem_cons_of_mem _ (List.mem_cons_self _ _)
      · exact List.mem_cons_of_mem _ (List.mem_cons_of_mem _ (List.mem_cons_self _ _))
    · obtain ⟨h1, h2, h3⟩ := triChunks_mem rest t ht
      exact ⟨List.mem_cons_of_mem _ (List.mem_cons_of_mem _ (List.mem_cons_of_mem _ h1)),
        List.mem_cons_of_mem _ (List.mem_cons_of_mem _ (List.mem_cons_of_mem _ h2)),
        List.mem_cons_of_mem _ (List.mem_cons_of_mem _ (List.mem_cons_of_mem _ h3))⟩

theorem clipTriangle_ok (ts : List ℕ) (st : ClipState) (tri : ℕ × ℕ × ℕ)
    (hc : CacheOk st)
    (ht1 : tri.1 < st.vertices.length) (ht2 : tri.2.1 < st.vertices.length)
    (ht3 : tri.2.2 < st.vertices.length)
    (hts : ShapeOk st hyperplanes ts) :
    CacheOk (clipTriangle (ts, st) tri).2 ∧
    StExt st (clipTriangle (ts, st) tri).2 ∧
    ShapeOk (clipTriangle (ts, st) tri).2 hyperplanes (clipTriangle (ts, st) tri).1 := by
  have hb : ∀ i ∈ [tri.1, tri.2.1, tri.2.2], i < st.vertices.length := by
    intro i hi
    rcases List.mem_cons.mp hi with rfl | hi
    · exact ht1
    rcases List.mem_cons.mp hi with rfl | hi
    · exact ht2
    rcases List.mem_cons.mp hi with rfl | hi
    · exact ht3
    cases hi
  obtain ⟨hcp, hextp, hpp⟩ := clipShapePlanes_ok st [tri.1, tri.2.1, tri.2.2] hc hb
  simp only [clipTriangle]
  refine ⟨hcp, hextp, ?_⟩
  intro i hi
  rcases List.mem_append.mp hi with hi | hi
  · obtain ⟨hilt, hibnd⟩ := hts i hi
    refine ⟨lt_of_lt_of_le hilt (stExt_len hextp), ?_⟩
    intro pl hpl
    rw [vAt_ext hextp i hilt]
    exact hibnd pl hpl
  · exact hpp i (fanTriangulate_sub _ i hi)

theorem clipGeomFold_ok (l : List (ℕ × ℕ × ℕ)) :
    ∀ (ts : List ℕ) (st : ClipState), CacheOk st → ShapeOk st hyperplanes ts →
      (∀ t ∈ l, t.1 < st.vertices.length ∧ t.2.1 < st.vertices.length ∧
        t.2.2 < st.vertices.length) →
    CacheOk (l.foldl clipTriangle (ts, st)).2 ∧
    StExt st (l.foldl clipTriangle (ts, st)).2 ∧
    ShapeOk (l.foldl clipTriangle (ts, st)).2 hyperplanes
      (l.foldl clipTriangle (ts, st)).1 := by
  induction l with
  | nil =>
    intro ts st hc hts _
    exact ⟨hc, stExt_refl st, hts⟩
  | cons t l ih =>
    intro ts st hc hts hb
    obtain ⟨ht1, ht2, ht3⟩ := hb t (List.mem_cons_self t l)
    obtain ⟨hc2, hext2, hts2⟩ := clipTriangle_ok ts st t hc ht1 ht2 ht3 hts
    rw [List.foldl_cons]
    rcases hstep : clipTriangle (ts, st) t with ⟨ns2, st2⟩
    rw [hstep] at hc2 hext2 hts2
    have hb2 : ∀ u ∈ l, u.1 < st2.vertices.length ∧
        u.2.1 < st2.vertices.length ∧ u.2.2 < st2.vertices.length := by
      intro u hu
      obtain ⟨h1, h2, h3⟩ := hb u (List.mem_cons_of_mem t hu)
      have hlen := stExt_len hext2
      exact ⟨lt_of_lt_of_le h1 hlen, lt_of_lt_of_le h2 hlen, lt_of_lt_of_le h3 hlen⟩
    obtain ⟨hcf, hextf, htsf⟩ := ih ns2 st2 hc2 hts2 hb2
    exact ⟨hcf, stExt_trans hext2 hextf, htsf⟩

/-- C2: every triangle index emitted by `clip_geometry` refers to a vertex
lying inside all six clip half-spaces, up to the parallel-line tolerance
`parTol = 1e-12` used by `lin_plane_intersect`. -/
theorem clip_geometry_inside_planes (g : Geometry)
    (hb : ∀ i ∈ g.triangles, i < g.vertices.length) :
    ∀ i ∈ g.clip_geometry.triangles, ∀ pl ∈ hyperplanes,
      pl.2.dot (g.clip_geometry.vertices.getD i v4zero) ≤ parTol := by
  have hc0 : CacheOk ⟨g.vertices, g.uvs, []⟩ := by
    intro e he
    cases he
  have hts0 : ShapeOk ⟨g.vertices, g.uvs, []⟩ hyperplanes [] := by
    intro i hi
    cases hi
  have hb0 : ∀ t ∈ triChunks g.triangles,
      t.1 < (⟨g.vertices, g.uvs, []⟩ : ClipState).vertices.length ∧
      t.2.1 < (⟨g.vertices, g.uvs, []⟩ : ClipState).vertices.length ∧
      t.2.2 < (⟨g.vertices, g.uvs, []⟩ : ClipState).vertices.length := by
    intro t ht
    obtain ⟨h1, h2, h3⟩ := triChunks_mem g.triangles t ht
    exact ⟨hb t.1 h1, hb t.2.1 h2, hb t.2.2 h3⟩
  obtain ⟨hcf, hextf, htsf⟩ := clipGeomFold_ok (triChunks g.triangles) []
    ⟨g.vertices, g.uvs, []⟩ hc0 hts0 hb0
  intro i hi pl hpl
  exact (htsf i hi).2 pl hpl

/-- `clipEdge` either leaves the state untouched, or (exactly on a cache
miss) appends one intersection vertex, one uv, and one cache entry keyed by
the normalized `(min, max, plane)` triple and holding the new vertex index. -/
theorem clipEdge_state_cases (pt : ClipPlane) (pn : Vec4) (ns : List ℕ)
    (st : ClipState) (ai bi : ℕ) :
    (clipEdge pt pn (ns, st) (ai, bi)).2 = st ∨
    ∃ k c uv, k.1 ≤ k.2.1 ∧ cacheLookup st.cache k = none ∧
      (clipEdge pt pn (ns, st) (ai, bi)).2
        = ⟨st.vertices ++ [c], st.uvs ++ [uv],
            st.cache ++ [(k, st.vertices.length)]⟩ := by
  simp only [clipEdge]
  set A := st.vertices.getD ai v4zero with hA
  set B := st.vertices.getD bi v4zero with hB
  by_cases hstrad : (pn.dot B ≤ 0 ∧ ¬pn.dot A ≤ 0) ∨ (pn.dot A ≤ 0 ∧ ¬pn.dot B ≤ 0)
  · rw [if_pos hstrad]
    rcases hint : lin_plane_intersect4 v4zero pn A (B.sub A) with _ | t
    · by_cases hbin : pn.dot B ≤ 0
      · rw [if_neg (by simpa using hbin)]
        exact Or.inl rfl
      · rw [if_pos (by simpa using hbin)]
        exact Or.inl rfl
    · rcases hlook : cacheLookup st.cache
          (if ai > bi then bi else ai, if ai > bi then ai else bi, pt)
        with _ | ci
      · simp only [hlook]
        have hci : (st.vertices ++ [A.lerp B t]).length - 1 = st.vertices.length := by
          rw [List.length_append]
          simp
        simp only [hci]
        have hkle : (if ai > bi then bi else ai) ≤ (if ai > bi then ai else bi) := by
          by_cases h : ai > bi
          · rw [if_pos h, if_pos h]
            omega
          · rw [if_neg h, if_neg h]
            omega
        by_cases hbin : pn.dot B ≤ 0
        · rw [if_pos hbin]
          exact Or.inr ⟨_, _, _, hkle, hlook, rfl⟩
        · rw [if_neg hbin]
          exact Or.inr ⟨_, _, _, hkle, hlook, rfl⟩
      · simp only [hlook]
        by_cases hbin : pn.dot B ≤ 0
        · rw [if_pos hbin]
          exact Or.inl rfl
        · rw [if_neg hbin]
          exact Or.inl rfl
  · rw [if_neg hstrad]
    by_cases hbin : pn.dot B ≤ 0
    · rw [if_pos hbin]
      exact Or.inl rfl
    · rw [if_neg hbin]
      exact Or.inl rfl

/-- The bookkeeping invariant for C7: each cache entry owns exactly one
appended vertex and one appended uv (the entries hold, in insertion order,
the consecutive indices of the vertices they created), cache keys are never
duplicated, and every key is a normalized `(min, max, plane)` triple. -/
def CacheCount (n0 u0 : ℕ) (st : ClipState) : Prop :=
  st.vertices.length = n0 + st.cache.length ∧
  st.uvs.length = u0 + st.cache.length ∧
  st.cache.map Prod.snd = List.range' n0 st.cache.length ∧
  (st.cache.map Prod.fst).Nodup ∧
  ∀ e ∈ st.cache, e.1.1 ≤ e.1.2.1

theorem cacheCount_clipEdge (n0 u0 : ℕ) (pt : ClipPlane) (pn : Vec4)
    (ns : List ℕ) (st : ClipState) (ai bi : ℕ)
    (h : CacheCount n0 u0 st) :
    CacheCount n0 u0 (clipEdge pt pn (ns, st) (ai, bi)).2 := by
  obtain ⟨h1, h2, h3, h4, h5⟩ := h
  rcases clipEdge_state_cases pt pn ns st ai bi with heq | ⟨k, c, uv, hkle, hlook, heq⟩
  · rw [heq]
    exact ⟨h1, h2, h3, h4, h5⟩
  · rw [heq]
    have hknotin := cacheLookup_none st.cache k hlook
    refine ⟨?_, ?_, ?_, ?_, ?_⟩
    · show (st.vertices ++ [c]).length
        = n0 + (st.cache ++ [(k, st.vertices.length)]).length
      rw [List.length_append, List.length_append]
      simp only [List.length_cons, List.length_nil]
      omega
    · show (st.uvs ++ [uv]).length
        = u0 + (st.cache ++ [(k, st.vertices.length)]).length
      rw [List.length_append, List.length_append]
      simp only [List.length_cons, List.length_nil]
      omega
    · show (st.cache ++ [(k, st.vertices.length)]).map Prod.snd
        = List.range' n0 (st.cache ++ [(k, st.vertices.length)]).length
      rw [List.map_append, List.length_append]
      simp only [List.map_cons, List.map_nil, List.length_cons, List.length_nil]
      rw [List.range'_concat, one_mul, h3, h1]
    · show ((st.cache ++ [(k, st.vertices.length)]).map Prod.fst).Nodup
      rw [List.map_append, List.nodup_append]
      refine ⟨h4, by simp, ?_⟩
      intro a ha hb
      simp only [List.map_cons, List.map_nil, List.mem_singleton] at hb
      obtain ⟨e, he, hefst⟩ := List.mem_map.mp ha
      exact hknotin e he (by rw [hefst, hb])
    · intro e he
      rcases List.mem_append.mp he with he | he
      · exact h5 e he
      · rcases List.mem_singleton.mp he with rfl
        exact hkle

theorem cacheCount_foldl_edges (n0 u0 : ℕ) (pt : ClipPlane) (pn : Vec4) :
    ∀ (l : List (ℕ × ℕ)) (acc : List ℕ × ClipState), CacheCount n0 u0 acc.2 →
      CacheCount n0 u0 (l.foldl (clipEdge pt pn) acc).2 := by
  intro l
  induction l with
  | nil =>
    intro acc h
    exact h
  | cons p l ih =>
    intro acc h
    rw [List.foldl_cons]
    exact ih _ (cacheCount_clipEdge n0 u0 pt pn acc.1 acc.2 p.1 p.2 h)

theorem cacheCount_clipShapePlane (n0 u0 : ℕ) (pt : ClipPlane) (pn : Vec4)
    (st : ClipState) (shape : List ℕ) (h : CacheCount n0 u0 st) :
    CacheCount n0 u0 (clipShapePlane pt pn st shape).2 :=
  cacheCount_foldl_edges n0 u0 pt pn (shape.zip (shape.rotate 1)) ([], st) h

theorem cacheCount_clipShapePlanes (n0 u0 : ℕ) (st : ClipState) (shape : List ℕ)
    (h : CacheCount n0 u0 st) : CacheCount n0 u0 (clipShapePlanes st shape).2 := by
  simp only [clipShapePlanes, hyperplanes, List.foldl_cons, List.foldl_nil]
  exact cacheCount_clipShapePlane n0 u0 _ _ _ _
    (cacheCount_clipShapePlane n0 u0 _ _ _ _
      (cacheCount_clipShapePlane n0 u0 _ _ _ _
        (cacheCount_clipShapePlane n0 u0 _ _ _ _
          (cacheCount_clipShapePlane n0 u0 _ _ _ _
            (cacheCount_clipShapePlane n0 u0 _ _ _ _ h)))))

theorem cacheCount_clipTriangle (n0 u0 : ℕ) (acc : List ℕ × ClipState)
    (tri : ℕ × ℕ × ℕ) (h : CacheCount n0 u0 acc.2) :
    CacheCount n0 u0 (clipTriangle acc tri).2 := by
  simp only [clipTriangle]
  exact cacheCount_clipShapePlanes n0 u0 _ _ h

theorem cacheCount_clipGeom (n0 u0 : ℕ) :
    ∀ (l : List (ℕ × ℕ × ℕ)) (acc : List ℕ × ClipState), CacheCount n0 u0 acc.2 →
      CacheCount n0 u0 (l.foldl clipTriangle acc).2 := by
  intro l
  induction l with
  | nil =>
    intro acc h
    exact h
  | cons t l ih =>
    intro acc h
    rw [List.foldl_cons]
    exact ih _ (cacheCount_clipTriangle n0 u0 acc t h)

/-- C7: over one whole `clip_geometry` run, the intersection cache keys
(normalized `(min, max, plane)` triples) are never duplicated, and exactly
one vertex and one uv are appended per cache entry: the entries hold, in
insertion order, the consecutive fresh indices starting at the original
vertex count, so a repeated edge-plane intersection reuses its cached
vertex index instead of appending another vertex. -/
theorem clip_cache_dedup (g : Geometry) :
    (((clipGeometryAux ⟨g.vertices, g.uvs, []⟩ g.triangles).2.cache.map
      Prod.fst).Nodup) ∧
    (clipGeometryAux ⟨g.vertices, g.uvs, []⟩ g.triangles).2.vertices.length
      = g.vertices.length
        + (clipGeometryAux ⟨g.vertices, g.uvs, []⟩ g.triangles).2.cache.length ∧
    (clipGeometryAux ⟨g.vertices, g.uvs, []⟩ g.triangles).2.uvs.length
      = g.uvs.length
        + (clipGeometryAux ⟨g.vertices, g.uvs, []⟩ g.triangles).2.cache.length ∧
    (clipGeometryAux ⟨g.vertices, g.uvs, []⟩ g.triangles).2.cache.map Prod.snd
      = List.range' g.vertices.length
          (clipGeometryAux ⟨g.vertices, g.uvs, []⟩ g.triangles).2.cache.length ∧
    ∀ e ∈ (clipGeometryAux ⟨g.vertices, g.uvs, []⟩ g.triangles).2.cache,
      e.1.1 ≤ e.1.2.1 := by
  have h0 : CacheCount g.vertices.length g.uvs.length ⟨g.vertices, g.uvs, []⟩ := by
    refine ⟨by simp, by simp, by simp, by simp, ?_⟩
    intro e he
    cases he
  have hf := cacheCount_clipGeom g.vertices.length g.uvs.length
    (triChunks g.triangles) ([], ⟨g.vertices, g.uvs, []⟩) h0
  obtain ⟨h1, h2, h3, h4, h5⟩ := hf
  exact ⟨h4, h1, h2, h3, h5⟩

/-! ### C3: texture sampling periodicity -/

/-- For a nonnegative coordinate the trunc-based fractional part is
translation invariant under integer shifts that stay nonnegative. -/
theorem fraction_add_int (u : ℚ) (n : ℤ) (hu : 0 ≤ u) (hun : 0 ≤ u + n) :
    (u + n) - ratTrunc (u + n) = u - ratTrunc u := by
  unfold ratTrunc
  rw [if_neg (not_lt.mpr hun), if_neg (not_lt.mpr hu), Int.floor_add_int u n]
  push_cast
  ring

/-- C3 (amended): sampling is periodic on the nonnegative quadrant: for
`u, v ≥ 0` and integer shifts `n, m` keeping them nonnegative,
`from_uv (u + n) (v + m) = from_uv u v`.  (For negative non-integer
coordinates the trunc-based fraction is negative and the saturating
`as usize` cast clamps the pixel coordinate to `0`, breaking periodicity.) -/
theorem from_uv_periodic_nonneg (t : Texture) (hw : 0 < t.width)
    (hh : 0 < t.height) (u v : ℚ) (hu : 0 ≤ u) (hv : 0 ≤ v) (n m : ℤ)
    (hun : 0 ≤ u + n) (hvm : 0 ≤ v + m) :
    t.from_uv (u + n) (v + m) = t.from_uv u v := by
  unfold Texture.from_uv
  rw [fraction_add_int u n hu hun, fraction_add_int v m hv hvm]

end SR

namespace SRL

/-! ### `src/scene/light.rs` and `src/pipeline/shader.rs`

The light module normalises directions with `f64::sqrt`, so it is modelled
over `ℝ`.  `Shader::shade` hits a `todo!()` panic on point lights; panicking
computations are modelled in `Option`. -/

/-- Real-valued stand-in for glam `DVec3` in the lighting code. -/
structure Vec3R where
  x : ℝ
  y : ℝ
  z : ℝ

def Vec3R.dot (u v : Vec3R) : ℝ := u.x * v.x + u.y * v.y + u.z * v.z

def Vec3R.neg (v : Vec3R) : Vec3R := ⟨-v.x, -v.y, -v.z⟩

/-- glam `DVec3::length`. -/
noncomputable def Vec3R.length (v : Vec3R) : ℝ := Real.sqrt (v.dot v)

/-- glam `DVec3::normalize`: `self / length`. -/
noncomputable def Vec3R.normalize (v : Vec3R) : Vec3R :=
  ⟨v.x / v.length, v.y / v.length, v.z / v.length⟩

/-- glam `DVec3::Z`. -/
def zAxis : Vec3R := ⟨0, 0, 1⟩

/-- `LightType` (`src/scene/light.rs`). -/
inductive LightType where
  | AtInfinity (dir : Vec3R) : LightType
  | Point (position : Vec3R) (constant linear quadratic : ℝ) : LightType

/-- `Light`. -/
structure Light where
  strength : ℝ
  color : ℕ × ℕ × ℕ
  light_type : LightType

-- `Light::new` (the zero-direction test `dir.length() == 0.0` is a real
-- comparison, decided classically).
open Classical in
noncomputable def Light.new (strength : ℝ) (color : ℕ × ℕ × ℕ)
    (light_type : LightType) : Light :=
  match light_type with
  | .AtInfinity dir =>
      let dir1 := if dir.length = 0 then zAxis else dir
      { strength := max strength 0, color := color,
        light_type := .AtInfinity dir1.normalize }
  | .Point position constant linear quadratic =>
      { strength := max strength 0, color := color,
        light_type := .Point position (max constant 0) linear quadratic }

/-- `ShaderType` (`src/pipeline/shader.rs`). -/
inductive ShaderType where
  | Phong | Gouraud | Flat

/-- `Shader`. -/
structure Shader where
  ambient : ℝ
  shader_type : ShaderType

/-- The light loop of `Shader::shade`; `none` models the `todo!()` panic on
point lights. -/
noncomputable def shadeLoop (normal : Vec3R) : ℝ → List Light → Option ℝ
  | shading, [] => some shading
  | shading, l :: rest =>
      match l.light_type with
      | .AtInfinity dir =>
          shadeLoop normal (shading + l.strength * max (normal.dot dir.neg) 0) rest
      | .Point _ _ _ _ => none

/-- `Shader::shade`: accumulate directional contributions onto the ambient
value and cap at `1`. -/
noncomputable def Shader.shade (s : Shader) (normal : Vec3R)
    (lights : List Light) : Option ℝ :=
  (shadeLoop normal s.ambient lights).map (fun shading => min shading 1)

/-- Whether a light is a point light. -/
def Light.isPoint (l : Light) : Prop :=
  match l.light_type with
  | .Point _ _ _ _ => True
  | .AtInfinity _ => False

/-- The sum `Σ strengthᵢ · max(0, n · (−dirᵢ))` over the directional
lights. -/
noncomputable def dirSum (normal : Vec3R) (lights : List Light) : ℝ :=
  lights.foldr
    (fun l acc =>
      match l.light_type with
      | .AtInfinity dir => l.strength * max 0 (normal.dot dir.neg) + acc
      | .Point _ _ _ _ => acc) 0

/-- Modelled from the spec (§4.7): the shading formula the specification
states, `clamp(ambient + Σ strengthᵢ · max(0, n · (−dirᵢ)), 0, 1)`, for
comparison with the code's `Shader::shade`.  The sum ranges over the
`Directional` lights. -/
noncomputable def shadeSpec (ambient : ℝ) (normal : Vec3R)
    (lights : List Light) : ℝ :=
  min (max (ambient + dirSum normal lights) 0) 1

/-! ### C9 and C10: shader and lights -/

theorem shadeLoop_directional (normal : Vec3R) (lights : List Light)
    (hl : ∀ l ∈ lights, ∃ d, l.light_type = .AtInfinity d) :
    ∀ init : ℝ, shadeLoop normal init lights = some (init + dirSum normal lights) := by
  induction lights with
  | nil => intro init; simp [shadeLoop, dirSum]
  | cons l rest ih =>
      intro init
      have ihr := ih (fun x hx => hl x (List.mem_cons_of_mem l hx))
      obtain ⟨d, hd⟩ := hl l (List.mem_cons_self l rest)
      simp only [shadeLoop, hd, dirSum, List.foldr_cons, ihr]
      rw [max_comm (normal.dot d.neg) 0]
      congr 1
      ring

theorem dirSum_nonneg (normal : Vec3R) (lights : List Light)
    (hl : ∀ l ∈ lights, 0 ≤ l.strength) : 0 ≤ dirSum normal lights := by
  induction lights with
  | nil => simp [dirSum]
  | cons l rest ih =>
      have hrest : (0:ℝ) ≤ dirSum normal rest :=
        ih (fun x hx => hl x (List.mem_cons_of_mem l hx))
      have hs := hl l (List.mem_cons_self l rest)
      simp only [dirSum, List.foldr_cons]
      simp only [dirSum] at hrest
      rcases hlt : l.light_type with dir | _
      · simp only [hlt]
        have hterm : (0:ℝ) ≤ l.strength * max 0 (normal.dot dir.neg) :=
          mul_nonneg hs (le_max_left 0 _)
        exact add_nonneg hterm hrest
      · simp only [hlt]
        exact hrest

/-- C9: for ambient in `[0,1]`, a unit normal, and directional lights with
nonnegative strength and unit direction, `Shader::shade` returns exactly the
spec's `clamp(ambient + Σ strengthᵢ · max(0, n · (−dirᵢ)), 0, 1)`, a value
in `[0, 1]`. -/
theorem shade_eq_clamp (ambient : ℝ) (h0 : 0 ≤ ambient) (h1 : ambient ≤ 1)
    (st : ShaderType) (normal : Vec3R) (hn : normal.dot normal = 1)
    (lights : List Light)
    (hl : ∀ l ∈ lights, 0 ≤ l.strength ∧
      ∃ d, l.light_type = .AtInfinity d ∧ d.dot d = 1) :
    ∃ L, Shader.shade ⟨ambient, st⟩ normal lights = some L ∧
      L = shadeSpec ambient normal lights ∧ 0 ≤ L ∧ L ≤ 1 := by
  have hdir : ∀ l ∈ lights, ∃ d, l.light_type = .AtInfinity d := by
    intro l hml
    obtain ⟨_, d, hd, _⟩ := hl l hml
    exact ⟨d, hd⟩
  have hsum : (0:ℝ) ≤ dirSum normal lights :=
    dirSum_nonneg normal lights (fun l hml => (hl l hml).1)
  have hpos : (0:ℝ) ≤ ambient + dirSum normal lights := add_nonneg h0 hsum
  refine ⟨min (ambient + dirSum normal lights) 1, ?_, ?_, ?_, min_le_right _ _⟩
  · rw [Shader.shade]
    rw [shadeLoop_directional normal lights hdir ambient]
    rfl
  · rw [shadeSpec, max_eq_left hpos]
  · exact le_min hpos zero_le_one

theorem shadeLoop_point (normal : Vec3R) (lights : List Light)
    (hp : ∃ l ∈ lights, l.isPoint) :
    ∀ init : ℝ, shadeLoop normal init lights = none := by
  induction lights with
  | nil => simp at hp
  | cons l rest ih =>
      intro init
      rcases hlt : l.light_type with dir | _
      · simp only [shadeLoop, hlt]
        apply ih
        obtain ⟨l2, hml2, hpt⟩ := hp
        rcases List.mem_cons.mp hml2 with rfl | hml2
        · rw [Light.isPoint, hlt] at hpt
          exact absurd hpt not_false
        · exact ⟨l2, hml2, hpt⟩
      · simp only [shadeLoop, hlt]

/-- C10: `Light::new` with a `Directional` (`AtInfinity`) kind clamps the
strength to `≥ 0` and stores a unit-length direction, substituting `+Z` when
the supplied direction is the zero vector; and `Shader::shade` on any light
list containing a point light does not return a value (the `todo!()` panic,
`none` in the model). -/
theorem light_new_and_point_shade (strength : ℝ) (color : ℕ × ℕ × ℕ)
    (dir : Vec3R) (s : Shader) (normal : Vec3R) (lights : List Light)
    (hp : ∃ l ∈ lights, l.isPoint) :
    (Light.new strength color (.AtInfinity dir)).strength = max strength 0 ∧
    (∃ d, (Light.new strength color (.AtInfinity dir)).light_type
        = .AtInfinity d ∧ d.dot d = 1 ∧ (dir = ⟨0, 0, 0⟩ → d = zAxis)) ∧
    s.shade normal lights = none := by
  refine ⟨rfl, ?_, ?_⟩
  · refine ⟨(if dir.length = 0 then zAxis else dir).normalize, rfl, ?_, ?_⟩
    · by_cases hlen : dir.length = 0
      · rw [if_pos hlen]
        have hz : zAxis.length = 1 := by
          rw [Vec3R.length, zAxis, Vec3R.dot]
          norm_num
        rw [Vec3R.normalize, hz]
        rw [Vec3R.dot]
        norm_num [zAxis]
      · rw [if_neg hlen]
        have hS : (0:ℝ) ≤ dir.dot dir := by
          rw [Vec3R.dot]
          have h1 := mul_self_nonneg dir.x
          have h2 := mul_self_nonneg dir.y
          have h3 := mul_self_nonneg dir.z
          linarith
        have hSne : dir.dot dir ≠ 0 := by
          intro h
          exact hlen (by rw [Vec3R.length, h, Real.sqrt_zero])
        rw [Vec3R.normalize, Vec3R.dot]
        rw [Vec3R.length]
        rw [div_mul_div_comm, div_mul_div_comm, div_mul_div_comm]
        rw [div_add_div_same, div_add_div_same]
        rw [Real.mul_self_sqrt hS]
        rw [← Vec3R.dot]
        exact div_self hSne
    · intro h0
      have : dir.length = 0 := by
        rw [h0, Vec3R.length, Vec3R.dot]
        norm_num
      rw [if_pos this]
      have hz : zAxis.length = 1 := by
        rw [Vec3R.length, zAxis, Vec3R.dot]
        norm_num
      rw [Vec3R.normalize, hz, zAxis]
      norm_num
  · rw [Shader.shade, shadeLoop_point normal lights hp]
    rfl

end SRL

namespace SR

/-! ## Lemmas and claim theorems -/

/-- The culled triangle list, seen as index triples, is exactly the filter
of the input triples by the keep test. -/
theorem cullTriangles_chunks (verts : List Vec4) (cam : Vec3) :
    ∀ tris : List ℕ,
      triChunks (cullTriangles verts cam tris)
        = (triChunks tris).filter (fun t => decide (keepTriangle verts cam t))
  | a :: b :: c :: rest => by
      rw [cullTriangles, triChunks]
      by_cases h : keepTriangle verts cam (a, b, c)
      · simp [if_pos h, triChunks, List.filter_cons, h,
          cullTriangles_chunks verts cam rest]
      · simp [if_neg h, List.filter_cons, h,
          cullTriangles_chunks verts cam rest]
  | [] => by rw [cullTriangles.eq_def, triChunks.eq_def]; rfl
  | [a] => by rw [cullTriangles.eq_def, triChunks.eq_def]; rfl
  | [a, b] => by rw [cullTriangles.eq_def, triChunks.eq_def]; rfl

/-- C4: `cull_backface` keeps a triangle `(a, b, c)` exactly when
`(a − cam_pos) · ((b − a) × (c − a)) < 0` (so in particular it never drops a
triangle whose geometric normal has negative dot product with
`first_vertex − camera_position`), and it leaves the vertex and uv arrays
unchanged. -/
theorem cull_backface_keeps_iff (g : Geometry) (camera_position : Vec3) :
    (g.cull_backface camera_position).vertices = g.vertices ∧
    (g.cull_backface camera_position).uvs = g.uvs ∧
    triChunks (g.cull_backface camera_position).triangles
      = (triChunks g.triangles).filter
          (fun t => decide (keepTriangle g.vertices camera_position t)) ∧
    (∀ t : ℕ × ℕ × ℕ,
      (t ∈ triChunks (g.cull_backface camera_position).triangles ↔
        t ∈ triChunks g.triangles ∧ keepTriangle g.vertices camera_position t)) := by
  refine ⟨rfl, rfl, cullTriangles_chunks g.vertices camera_position g.triangles, ?_⟩
  intro t
  rw [Geometry.cull_backface, cullTriangles_chunks g.vertices camera_position g.triangles]
  simp [List.mem_filter]

end SR

namespace SR

/-! ## Concrete witnesses and counterexamples

`Rat`'s arithmetic is `@[irreducible]` in Batteries, which blocks `decide`
on concrete rational computations; it is restored to `semireducible` for
this closing section only. -/

attribute [local semireducible] Rat.add Rat.sub Rat.mul Rat.inv Rat.ofScientific

/-- A 1-by-1 RGB24 texture with the single texel `(200, 100, 50)`. -/
def texC1 : Texture := ⟨[200, 100, 50], 1, 1, Format.RGB24⟩

/-- A 2-by-1 RGB24 texture with texels `(10, 20, 30)` and `(40, 50, 60)`. -/
def texC3 : Texture := ⟨[10, 20, 30, 40, 50, 60], 2, 1, Format.RGB24⟩

/-- A fresh tile: depth cleared to `f64::INFINITY`, colour cleared to `0`. -/
def tile0 : Tile := ⟨fun _ => ⊤, fun _ => 0⟩

/-- A one-pixel bounding box at the tile origin. -/
def btC1 : BinnedTriangle := ⟨0, 0, 0, 0, 0⟩

/-- A textured screen triangle at depth `1/2` covering pixel `(0, 0)`. -/
def cmdC1 : DrawCmd :=
  ⟨[⟨0, 0, 1/2, 1⟩, ⟨4, 0, 1/2, 1⟩, ⟨0, 4, 1/2, 1⟩],
   [⟨0, 0⟩, ⟨1, 0⟩, ⟨0, 1⟩], [1, 1, 1], [0, 1, 2], some texC1, btC1⟩

/-- The same triangle at the closer depth `1/4`. -/
def cmdC5 : DrawCmd :=
  ⟨[⟨0, 0, 1/4, 1⟩, ⟨4, 0, 1/4, 1⟩, ⟨0, 4, 1/4, 1⟩],
   [⟨0, 0⟩, ⟨1, 0⟩, ⟨0, 1⟩], [1, 1, 1], [0, 1, 2], some texC1, btC1⟩

/-- A triangle poking out of the `x ≤ w` half-space, so clipping cuts it. -/
def gEx : Geometry :=
  ⟨none, [⟨0, 0, 0, 1⟩, ⟨3, 0, 0, 1⟩, ⟨0, 1/2, 0, 1⟩],
   [⟨0, 0⟩, ⟨1, 0⟩, ⟨0, 1⟩], [0, 1, 2], [1, 1, 1], []⟩

/-- C1 (counterexample): the pixel `cmdC1` colours receives the raw texel
byte `200`, while the shader on the same scene (ambient `1/2`, no lights)
returns the shading scalar `L = 1/2`, and `200 ≠ 200 · L`: the written
colour is not the shaded texel the claim requires. -/
theorem raster_no_shading_counterexample :
    (rasterBinnedTriangle cmdC1.vertices cmdC1.uvs cmdC1.w_invs cmdC1.triangles
        cmdC1.texture 4 0 0 cmdC1.bt tile0).frame_buf 0 = 200 ∧
    SRL.Shader.shade ⟨1/2, SRL.ShaderType.Flat⟩ ⟨0, 0, 1⟩ [] = some (1/2) ∧
    ¬((200 : ℝ) = 200 * (1/2)) := by
  refine ⟨by decide, ?_, by norm_num⟩
  rw [SRL.Shader.shade, SRL.shadeLoop]
  norm_num

/-- C1 witness: the amended theorem at the concrete draw `cmdC1`. -/
theorem raster_unshaded_witness :
    (rasterBinnedTriangle cmdC1.vertices cmdC1.uvs cmdC1.w_invs cmdC1.triangles
        cmdC1.texture 4 0 0 cmdC1.bt tile0).depth_buf (0 + 0 * 4)
      = ((depthAt (mkCtx cmdC1.vertices cmdC1.uvs cmdC1.w_invs cmdC1.triangles
          cmdC1.texture 0 0 cmdC1.bt) cmdC1.bt 0 0 : ℚ) : WithTop ℚ) ∧
    (rasterBinnedTriangle cmdC1.vertices cmdC1.uvs cmdC1.w_invs cmdC1.triangles
        cmdC1.texture 4 0 0 cmdC1.bt tile0).frame_buf (4 * (0 + 0 * 4) + 0)
      = (texC1.from_uv
          (uvAt (mkCtx cmdC1.vertices cmdC1.uvs cmdC1.w_invs cmdC1.triangles
            cmdC1.texture 0 0 cmdC1.bt) cmdC1.bt 0 0).x
          (uvAt (mkCtx cmdC1.vertices cmdC1.uvs cmdC1.w_invs cmdC1.triangles
            cmdC1.texture 0 0 cmdC1.bt) cmdC1.bt 0 0).y).getD 0 0 :=
  ⟨(raster_writes_texel_unshaded cmdC1.vertices cmdC1.uvs cmdC1.w_invs
      cmdC1.triangles cmdC1.texture 4 0 0 cmdC1.bt tile0 0 0 texC1 rfl
      (by decide) (by decide) (by decide) (by decide) (by decide) (by decide)
      (by decide) (by decide) (by decide)).2.2,
   (raster_writes_texel_unshaded cmdC1.vertices cmdC1.uvs cmdC1.w_invs
      cmdC1.triangles cmdC1.texture 4 0 0 cmdC1.bt tile0 0 0 texC1 rfl
      (by decide) (by decide) (by decide) (by decide) (by decide) (by decide)
      (by decide) (by decide) (by decide)).1 0 (by decide)⟩

/-- C5 witness: `cmdC1` then `cmdC5` on a fresh tile at pixel `(0, 0)`. -/
theorem depth_test_monotone_witness :
    depthAt (cmdC5.ctx 0 0) cmdC5.bt 0 0 < depthAt (cmdC1.ctx 0 0) cmdC1.bt 0 0 ∧
    (runCmd 4 0 0 cmdC5
        (runCmds 4 0 0 [] (runCmd 4 0 0 cmdC1 tile0))).depth_buf (0 + 0 * 4)
      = ((depthAt (cmdC5.ctx 0 0) cmdC5.bt 0 0 : ℚ) : WithTop ℚ) :=
  depth_test_monotone 4 0 0 cmdC1 cmdC5 [] tile0 0 0 (by decide) (by decide)
    (by decide) (by decide) (by decide) (by decide) (by decide) (by decide)
    (by decide) (by decide) (by decide) (by decide)

/-- C6 witness: a 6-by-6 screen with 4-pixel tiles, edge tile `(1, 1)`. -/
theorem blit_covers_exactly_witness :
    (tileCovered 6 6 4 1 1).length = min 4 (6 - 1 * 4) * min 4 (6 - 1 * 4) :=
  (blit_covers_exactly 6 6 4 (by decide) 1 1 (by decide) (by decide)).1

/-- C2 witness: clipping `gEx` (which pokes out of `x ≤ w`). -/
theorem clip_inside_witness :
    (∀ i ∈ gEx.triangles, i < gEx.vertices.length) ∧
    ∀ i ∈ gEx.clip_geometry.triangles, ∀ pl ∈ hyperplanes,
      pl.2.dot (gEx.clip_geometry.vertices.getD i v4zero) ≤ parTol :=
  ⟨by decide, clip_geometry_inside_planes gEx (by decide)⟩

/-- C3 (counterexample): on `texC3` (width 2), shifting `u = -1/4` by the
integer `1` changes the sampled texel, because `trunc`-based wrapping makes
the fraction of a negative non-integer negative and the saturating cast
clamps its pixel column to `0`. -/
theorem from_uv_periodicity_counterexample :
    texC3.from_uv (-1/4 + ((1 : ℤ) : ℚ)) 0 ≠ texC3.from_uv (-1/4) 0 := by
  decide

/-- C3 witness: the amended periodicity at `u = 1/4`, `n = 1` on `texC3`. -/
theorem from_uv_periodic_witness :
    texC3.from_uv (1/4 + ((1 : ℤ) : ℚ)) (0 + ((0 : ℤ) : ℚ))
      = texC3.from_uv (1/4) 0 :=
  from_uv_periodic_nonneg texC3 (by decide) (by decide) (1/4) 0 (by decide)
    (by decide) 1 0 (by decide) (by decide)

end SR

namespace SRL

/-- A point light at the origin. -/
def lpt : Light := ⟨1, (0, 0, 0), .Point ⟨0, 0, 0⟩ 1 0 0⟩

/-- C9 witness: ambient `1/2`, unit normal `+Z`, no lights. -/
theorem shade_eq_clamp_witness :
    ∃ L, Shader.shade ⟨1/2, ShaderType.Flat⟩ ⟨0, 0, 1⟩ [] = some L ∧
      L = shadeSpec (1/2) ⟨0, 0, 1⟩ [] ∧ 0 ≤ L ∧ L ≤ 1 :=
  shade_eq_clamp (1/2) (by norm_num) (by norm_num) ShaderType.Flat ⟨0, 0, 1⟩
    (by norm_num [Vec3R.dot]) [] (by simp)

/-- C10 witness: a directional light of length 3 and a point-light scene. -/
theorem light_new_point_witness :
    (Light.new 2 (0, 0, 0) (.AtInfinity ⟨0, 0, 3⟩)).strength = max 2 0 ∧
    (∃ d, (Light.new 2 (0, 0, 0) (.AtInfinity ⟨0, 0, 3⟩)).light_type
        = .AtInfinity d ∧ d.dot d = 1 ∧
        ((⟨0, 0, 3⟩ : Vec3R) = ⟨0, 0, 0⟩ → d = zAxis)) ∧
    Shader.shade ⟨1/2, ShaderType.Flat⟩ ⟨0, 0, 1⟩ [lpt] = none :=
  light_new_and_point_shade 2 (0, 0, 0) ⟨0, 0, 3⟩ ⟨1/2, ShaderType.Flat⟩
    ⟨0, 0, 1⟩ [lpt] ⟨lpt, List.mem_cons_self lpt [], trivial⟩

end SRL
